import Mathlib

/-!
# Verification of the chameleon compression engine

A shallow embedding, in Lean 4, of the core of the `chameleon` DEFLATE
implementation (bit streams, the Huffman coder, the LZSS match finder and the
DEFLATE block-header parser), together with proofs and refutations of the
specified properties.

Machine integers are modelled as `Nat`; wherever the Rust source can wrap or
saturate in a way observable by the properties below, the reduction
(`% 2 ^ 32`, saturating addition, ...) is written out explicitly.
-/

namespace Chameleon

/-! ## `src/bits/bitstream.rs`

`BitStream` stores bits in a byte vector `bytes` together with a bit count
`len` (a `u32` in the source; modelled as `Nat`, the theorems below restrict
to fewer than `2 ^ 32` pushes, where both agree).  Bits are stored MSB-first
within each byte. -/

structure BitStream where
  len : Nat
  bytes : List Nat
deriving DecidableEq, Repr

/-- `BitStream::new`. -/
def BitStream.new : BitStream := ⟨0, []⟩

/-- The first step of `BitStream::push`: a value other than 0 or 1 is
normalized to 1 (the source prints a warning and continues — it does *not*
return an `InvalidBitValue` error; no error type exists in the module). -/
def BitStream.normalize (bit : Nat) : Nat :=
  match bit with
  | 0 => 0
  | 1 => 1
  | _ => 1

/-- The second step of `BitStream::push`: append one already-normalized bit. -/
def BitStream.pushNormalized (s : BitStream) (normalized_bit : Nat) : BitStream :=
  let bit_index : Nat := s.len % 8
  if bit_index ≠ 0 then
    let shift : Nat := 8 - bit_index - 1
    let last : Nat := s.bytes.getD (s.bytes.length - 1) 0
    { len := s.len + 1
      bytes := s.bytes.set (s.bytes.length - 1) (((last >>> shift) ||| normalized_bit) <<< shift) }
  else
    { len := s.len + 1, bytes := s.bytes ++ [normalized_bit <<< 7] }

/-- `BitStream::push`. -/
def BitStream.push (s : BitStream) (bit : Nat) : BitStream :=
  s.pushNormalized (BitStream.normalize bit)

/-- Pushing a whole sequence of values, starting from the given stream. -/
def BitStream.pushList (s : BitStream) (bits : List Nat) : BitStream :=
  bits.foldl BitStream.push s

/-- Bit `i` (counting from the most significant bit of the first byte) of the
backing buffer. -/
def BitStream.bitAt (s : BitStream) (i : Nat) : Bool :=
  (s.bytes.getD (i / 8) 0).testBit (7 - i % 8)

/-- The invariant claimed of `BitStream`: the backing buffer holds
`ceil(len / 8)` bytes, every byte is a `u8` value, and all padding bits
past position `len` are zero. -/
def BitStream.Inv (s : BitStream) : Prop :=
  s.bytes.length = (s.len + 7) / 8 ∧
  (∀ b ∈ s.bytes, b < 256) ∧
  (∀ i < 8 * s.bytes.length, s.len ≤ i → s.bitAt i = false)

/-! ## `src/compression/deflate.rs` -/

/-- `parse_block_header`: extracts `(BFINAL, BTYPE)` from the first byte of a
DEFLATE block.  Total — there is no error path; BTYPE = 3 is returned as an
ordinary value. -/
def parse_block_header (byte : Nat) : Bool × Nat :=
  let bfinal := (byte &&& 1) ≠ 0
  let btype := (byte &&& 6) >>> 1
  (decide bfinal, btype)

end Chameleon

namespace Chameleon

/-! ## Claims C2, C9, C4, C5 -/

theorem BitStream.push_len (s : BitStream) (bit : Nat) :
    (s.push bit).len = s.len + 1 := by
  unfold BitStream.push BitStream.pushNormalized
  by_cases h : s.len % 8 = 0 <;> simp [h]

theorem BitStream.getD_lt_256 {l : List Nat} (hb : ∀ b ∈ l, b < 256) (j : Nat) :
    l.getD j 0 < 256 := by
  rcases h : l[j]? with _ | b
  · simp [List.getD, h]
  · have : b ∈ l := List.getElem?_mem h
    simpa [List.getD, h] using hb b this

theorem BitStream.normalize_le_one (bit : Nat) : BitStream.normalize bit ≤ 1 := by
  rcases bit with _ | _ | b <;> simp [BitStream.normalize]

theorem BitStream.pushNormalized_inv {s : BitStream} {nb : Nat} (hnb : nb ≤ 1)
    (h : s.Inv) : (s.pushNormalized nb).Inv := by
  obtain ⟨hlen, hbound, hpad⟩ := h
  by_cases hr : s.len % 8 = 0
  · -- the last byte is full: a fresh byte `nb <<< 7` is appended
    refine ⟨?_, ?_, ?_⟩
    · simp only [BitStream.pushNormalized, hr, ne_eq, not_true_eq_false, if_false,
        List.length_append, List.length_singleton]
      omega
    · intro b hb
      simp only [BitStream.pushNormalized, hr, ne_eq, not_true_eq_false, if_false,
        List.mem_append, List.mem_singleton] at hb
      rcases hb with hb | rfl
      · exact hbound b hb
      · have : nb <<< 7 ≤ 128 := by
          rw [Nat.shiftLeft_eq]
          omega
        omega
    · intro i hi hlen_le
      simp only [BitStream.pushNormalized, hr, ne_eq, not_true_eq_false, if_false,
        List.length_append, List.length_singleton] at hi hlen_le ⊢
      unfold BitStream.bitAt
      have hidiv : i / 8 = s.bytes.length := by omega
      have himod : 1 ≤ i % 8 ∧ i % 8 ≤ 7 := by omega
      rw [hidiv]
      have hget : (s.bytes ++ [nb <<< 7]).getD s.bytes.length 0 = nb <<< 7 := by
        rw [List.getD_eq_getElem _ _ (by simp)]
        simp
      rw [hget, Nat.testBit_shiftLeft]
      have hlt7 : ¬ (7 - i % 8 ≥ 7) := by omega
      simp [hlt7]
  · -- the last byte is partially filled: its low bits are rewritten
    have h1 : 1 ≤ s.bytes.length := by omega
    refine ⟨?_, ?_, ?_⟩
    · simp only [BitStream.pushNormalized, hr, ne_eq, not_false_eq_true, if_true,
        List.length_set]
      omega
    · intro b hb
      simp only [BitStream.pushNormalized, hr, ne_eq, not_false_eq_true, if_true] at hb
      rcases List.mem_or_eq_of_mem_set hb with hb | rfl
      · exact hbound b hb
      · have hvlt : s.bytes.getD (s.bytes.length - 1) 0 < 256 := BitStream.getD_lt_256 hbound _
        have hsh6 : 8 - s.len % 8 - 1 ≤ 6 := by omega
        have hsum : 8 - (8 - s.len % 8 - 1) + (8 - s.len % 8 - 1) = 8 := by omega
        have hshr : s.bytes.getD (s.bytes.length - 1) 0 >>> (8 - s.len % 8 - 1)
            < 2 ^ (8 - (8 - s.len % 8 - 1)) := by
          rw [Nat.shiftRight_eq_div_pow]
          refine Nat.div_lt_of_lt_mul ?_
          rw [mul_comm, ← pow_add, hsum]
          exact hvlt
        have hnb' : nb < 2 ^ (8 - (8 - s.len % 8 - 1)) := by
          have h2 : (2 : Nat) ≤ 2 ^ (8 - (8 - s.len % 8 - 1)) := by
            calc (2 : Nat) = 2 ^ 1 := by norm_num
              _ ≤ 2 ^ (8 - (8 - s.len % 8 - 1)) := Nat.pow_le_pow_right (by omega) (by omega)
          omega
        have hor : (s.bytes.getD (s.bytes.length - 1) 0 >>> (8 - s.len % 8 - 1) ||| nb)
            < 2 ^ (8 - (8 - s.len % 8 - 1)) := Nat.or_lt_two_pow hshr hnb'
        rw [Nat.shiftLeft_eq]
        calc (s.bytes.getD (s.bytes.length - 1) 0 >>> (8 - s.len % 8 - 1) ||| nb)
              * 2 ^ (8 - s.len % 8 - 1)
            < 2 ^ (8 - (8 - s.len % 8 - 1)) * 2 ^ (8 - s.len % 8 - 1) :=
              (Nat.mul_lt_mul_right (Nat.pos_pow_of_pos _ (by omega))).mpr hor
          _ = 256 := by
              rw [← pow_add, hsum]
              norm_num
    · intro i hi hlen_le
      simp only [BitStream.pushNormalized, hr, ne_eq, not_false_eq_true, if_true,
        List.length_set] at hi hlen_le ⊢
      unfold BitStream.bitAt
      have hidiv : i / 8 = s.bytes.length - 1 := by omega
      have himod : s.len % 8 + 1 ≤ i % 8 ∧ i % 8 ≤ 7 := by omega
      rw [hidiv]
      have hget : ∀ w : Nat, (s.bytes.set (s.bytes.length - 1) w).getD (s.bytes.length - 1) 0
          = w := by
        intro w
        rw [List.getD_eq_getElem _ _ (by simp; omega)]
        simp [List.getElem_set_self]
      rw [hget, Nat.testBit_shiftLeft]
      have hlt : ¬ (7 - i % 8 ≥ 8 - s.len % 8 - 1) := by omega
      simp [hlt]

theorem BitStream.push_inv {s : BitStream} (bit : Nat) (h : s.Inv) : (s.push bit).Inv :=
  BitStream.pushNormalized_inv (BitStream.normalize_le_one bit) h

theorem BitStream.pushList_inv {s : BitStream} (bits : List Nat) (h : s.Inv) :
    (s.pushList bits).Inv := by
  induction bits generalizing s with
  | nil => exact h
  | cons b bs ih => exact ih (BitStream.push_inv b h)


/-- C9: after any sequence of `push` calls (of fewer than `2 ^ 32` bits, so
that the `u32` length counter in the source does not wrap), the backing byte
buffer has exactly `ceil(len / 8)` bytes, all of them `u8` values, and every
padding bit beyond position `len` in the last byte is zero. -/
theorem c9_push_sequence_invariant (bits : List Nat) (hcount : bits.length < 2 ^ 32) :
    (BitStream.new.pushList bits).Inv := by
  refine BitStream.pushList_inv bits ?_
  refine ⟨rfl, ?_, ?_⟩ <;> intro i hi <;> simp [BitStream.new] at hi

/-- Witness for `c9_push_sequence_invariant`: the spec example sequence
1,0,1,1 (plus a coerced 5) gives a 1-byte buffer with three zero padding
bits. -/
theorem c9_push_sequence_invariant_witness :
    (BitStream.new.pushList [1, 0, 1, 1, 5]).Inv :=
  c9_push_sequence_invariant [1, 0, 1, 1, 5] (by decide)

/-- C2: the spec claims `push` fails with `InvalidBitValue` for any value
other than 0/1 with no silent coercion.  The source instead normalizes every
such value to 1 (printing a warning) and appends that coerced bit; pushing 2
onto the empty stream yields the same state as pushing 1 — the byte
`128`. -/
theorem c2_push_coerces_nonbinary_to_one :
    BitStream.new.push 2 = ⟨1, [128]⟩ ∧
    BitStream.new.push 2 = BitStream.new.push 1 ∧
    BitStream.new.push 0 = ⟨1, [0]⟩ := by
  refine ⟨rfl, rfl, rfl⟩

/-- C5: the three concrete header bytes from the spec decode as claimed. -/
theorem c5_parse_block_header_examples :
    parse_block_header 1 = (true, 0) ∧
    parse_block_header 5 = (true, 2) ∧
    parse_block_header 0 = (false, 0) := by
  refine ⟨rfl, rfl, rfl⟩

/-- C4 (counterexample): the spec claims a header whose BTYPE bits are `11`
fails with `MalformedBlockHeader`.  `parse_block_header` is a total function
into `Bool × Nat` with no error path at all: on the byte `6` it
returns `(BFINAL = false, BTYPE = 3)` as an ordinary value. -/
theorem c4_btype3_returned_not_rejected :
    parse_block_header 6 = (false, 3) := rfl

set_option maxRecDepth 4096 in
/-- C4 (amended): for every header byte, parsing extracts BFINAL from bit 0
and BTYPE from bits 1–2 — including BTYPE = 3, which is returned as a value
rather than rejected. -/
theorem c4_parse_block_header_extracts_bits (byte : Nat) (h : byte < 256) :
    parse_block_header byte = (decide (byte % 2 = 1), byte / 2 % 4) := by
  revert h
  revert byte
  decide

/-- Witness for `c4_parse_block_header_extracts_bits` at byte `6`. -/
theorem c4_parse_block_header_extracts_bits_witness :
    parse_block_header 6 = (decide ((6 : Nat) % 2 = 1), 6 / 2 % 4) :=
  c4_parse_block_header_extracts_bits 6 (by decide)

end Chameleon

namespace Chameleon

/-! ## `src/compression/lzss.rs`

The two RFC 1951 §3.2.5 code tables, rows in the source format
`[SYMBOL, EXTRA BITS, RANGE START, RANGE END]`, and the `LempelZiv`
match finder. -/

def LENGTH_CODE_RANGES : List (Nat × Nat × Nat × Nat) :=
  [(257, 0, 3, 3), (258, 0, 4, 4), (259, 0, 5, 5), (260, 0, 6, 6),
   (261, 0, 7, 7), (262, 0, 8, 8), (263, 0, 9, 9), (264, 0, 10, 10),
   (265, 1, 11, 12), (266, 1, 13, 14), (267, 1, 15, 16), (268, 1, 17, 18),
   (269, 2, 19, 22), (270, 2, 23, 26), (271, 2, 27, 30), (272, 2, 31, 34),
   (273, 3, 35, 42), (274, 3, 43, 50), (275, 3, 51, 58), (276, 3, 59, 66),
   (277, 4, 67, 82), (278, 4, 83, 98), (279, 4, 99, 114), (280, 4, 115, 130),
   (281, 5, 131, 162), (282, 5, 163, 194), (283, 5, 195, 226), (284, 5, 227, 257),
   (285, 0, 258, 258)]

def DISTANCE_CODE_RANGES : List (Nat × Nat × Nat × Nat) :=
  [(0, 0, 1, 1), (1, 0, 2, 2), (2, 0, 3, 3), (3, 0, 4, 4),
   (4, 1, 5, 6), (5, 1, 7, 8), (6, 2, 9, 12), (7, 2, 13, 16),
   (8, 3, 17, 24), (9, 3, 25, 32), (10, 4, 33, 48), (11, 4, 49, 64),
   (12, 5, 65, 96), (13, 5, 97, 128), (14, 6, 129, 192), (15, 6, 193, 256),
   (16, 7, 257, 384), (17, 7, 385, 512), (18, 8, 513, 768), (19, 8, 769, 1024),
   (20, 9, 1025, 1536), (21, 9, 1537, 2048), (22, 10, 2049, 3072), (23, 10, 3073, 4096),
   (24, 11, 4097, 6144), (25, 11, 6145, 8192), (26, 12, 8193, 12288), (27, 12, 12289, 16384),
   (28, 13, 16385, 24576), (29, 13, 24577, 32768)]

/-- `rows` tile the interval `[lo, hi]` exactly: each row starts where the
previous one stopped, rows are nonempty, and the last row ends at `hi`. -/
def tilesFrom (lo hi : Nat) : List (Nat × Nat × Nat × Nat) → Bool
  | [] => lo == hi + 1
  | (_, _, s, e) :: rest => s == lo && decide (lo ≤ e) && tilesFrom (e + 1) hi rest

theorem tilesFrom_lo_le (lo hi : Nat) (rows : List (Nat × Nat × Nat × Nat))
    (h : tilesFrom lo hi rows = true) : lo ≤ hi + 1 := by
  induction rows generalizing lo with
  | nil =>
    simp only [tilesFrom, beq_iff_eq] at h
    omega
  | cons r rest ih =>
    obtain ⟨_, _, s, e⟩ := r
    simp only [tilesFrom, Bool.and_eq_true, beq_iff_eq, decide_eq_true_eq] at h
    have := ih (e + 1) h.2
    omega

theorem tilesFrom_covers (lo hi : Nat) (rows : List (Nat × Nat × Nat × Nat))
    (h : tilesFrom lo hi rows = true) (v : Nat) (h1 : lo ≤ v) (h2 : v ≤ hi) :
    ∃ r ∈ rows, r.2.2.1 ≤ v ∧ v ≤ r.2.2.2 := by
  induction rows generalizing lo with
  | nil =>
    simp only [tilesFrom, beq_iff_eq] at h
    omega
  | cons r rest ih =>
    obtain ⟨c, x, s, e⟩ := r
    simp only [tilesFrom, Bool.and_eq_true, beq_iff_eq, decide_eq_true_eq] at h
    obtain ⟨⟨hs, hle⟩, hrest⟩ := h
    by_cases hv : v ≤ e
    · exact ⟨(c, x, s, e), List.mem_cons_self .., by simp; omega⟩
    · obtain ⟨r, hr, hrv⟩ := ih (e + 1) hrest (by omega)
      exact ⟨r, List.mem_cons_of_mem _ hr, hrv⟩

theorem tilesFrom_bounds (lo hi : Nat) (rows : List (Nat × Nat × Nat × Nat))
    (h : tilesFrom lo hi rows = true) (r : Nat × Nat × Nat × Nat) (hr : r ∈ rows) :
    lo ≤ r.2.2.1 ∧ r.2.2.1 ≤ r.2.2.2 ∧ r.2.2.2 ≤ hi := by
  induction rows generalizing lo with
  | nil => cases hr
  | cons q rest ih =>
    obtain ⟨c, x, s, e⟩ := q
    simp only [tilesFrom, Bool.and_eq_true, beq_iff_eq, decide_eq_true_eq] at h
    obtain ⟨⟨hs, hle⟩, hrest⟩ := h
    rcases List.mem_cons.1 hr with rfl | hr
    · have := tilesFrom_lo_le _ _ _ hrest
      simp
      omega
    · have := ih (e + 1) hrest hr
      omega

theorem tilesFrom_pairwise (lo hi : Nat) (rows : List (Nat × Nat × Nat × Nat))
    (h : tilesFrom lo hi rows = true) :
    List.Pairwise (fun r1 r2 => r1.2.2.2 < r2.2.2.1) rows := by
  induction rows generalizing lo with
  | nil => exact List.Pairwise.nil
  | cons q rest ih =>
    obtain ⟨c, x, s, e⟩ := q
    simp only [tilesFrom, Bool.and_eq_true, beq_iff_eq, decide_eq_true_eq] at h
    obtain ⟨⟨hs, hle⟩, hrest⟩ := h
    refine List.Pairwise.cons ?_ (ih (e + 1) hrest)
    intro r hr
    have := tilesFrom_bounds _ _ _ hrest r hr
    simp
    omega

end Chameleon

namespace Chameleon

/-- C6: the length rows tile `[3, 258]` and the distance rows tile
`[1, 32768]`: a value lies in the legal domain iff some row's inclusive
range contains it, successive rows never overlap, and the row for length
symbol 269 carries extra-bit count 2 and range `[19, 22]`. -/
theorem c6_range_tables_tile_domains :
    ((∀ v : Nat, (3 ≤ v ∧ v ≤ 258) ↔ ∃ r ∈ LENGTH_CODE_RANGES, r.2.2.1 ≤ v ∧ v ≤ r.2.2.2) ∧
      List.Pairwise (fun r1 r2 => r1.2.2.2 < r2.2.2.1) LENGTH_CODE_RANGES) ∧
    ((∀ d : Nat, (1 ≤ d ∧ d ≤ 32768) ↔ ∃ r ∈ DISTANCE_CODE_RANGES, r.2.2.1 ≤ d ∧ d ≤ r.2.2.2) ∧
      List.Pairwise (fun r1 r2 => r1.2.2.2 < r2.2.2.1) DISTANCE_CODE_RANGES) ∧
    (269, 2, 19, 22) ∈ LENGTH_CODE_RANGES := by
  have hlen : tilesFrom 3 258 LENGTH_CODE_RANGES = true := by decide
  have hdist : tilesFrom 1 32768 DISTANCE_CODE_RANGES = true := by decide
  refine ⟨⟨?_, tilesFrom_pairwise _ _ _ hlen⟩, ⟨?_, tilesFrom_pairwise _ _ _ hdist⟩, by decide⟩
  · intro v
    constructor
    · intro hv
      exact tilesFrom_covers _ _ _ hlen v hv.1 hv.2
    · rintro ⟨r, hr, h1, h2⟩
      have := tilesFrom_bounds _ _ _ hlen r hr
      omega
  · intro d
    constructor
    · intro hd
      exact tilesFrom_covers _ _ _ hdist d hd.1 hd.2
    · rintro ⟨r, hr, h1, h2⟩
      have := tilesFrom_bounds _ _ _ hdist r hr
      omega

end Chameleon

namespace Chameleon

/-- A token printed by `LempelZiv::compress`: either a literal
`println!("{}, {}", i, byte as char)` or a back-reference
`println!("{}", format!("{}, {}", offset, length))`. -/
inductive LzToken where
  | literal (index : Nat) (byte : Nat)
  | backref (offset : Int) (length : Nat)
deriving DecidableEq, Repr

/-- Inner loop of `LempelZiv::in_array`: scan `check_from` with a running
match offset, resetting the offset on a mismatch. -/
def in_array_go (check_for : List Nat) (check_from : List Nat) (index offset : Nat) : Int :=
  match check_from with
  | [] => -1
  | byte :: rest =>
    if check_for.length ≤ offset then (index : Int) - (check_for.length : Int)
    else if check_for.getD offset 0 = byte then in_array_go check_for rest (index + 1) (offset + 1)
    else in_array_go check_for rest (index + 1) 0

/-- `LempelZiv::in_array`: index at which `check_for` first completes inside
`check_from`, or `-1`.  (A match that only completes at the very end of
`check_from` is reported as `-1`, exactly as in the source.) -/
def in_array (check_for check_from : List Nat) : Int :=
  in_array_go check_for check_from 0 0

/-- The string `format!("{}, {}", offset, length)` built for a candidate
back-reference; `compress` emits the back-reference only when this string is
no longer than the match itself. -/
def lz_token_string (offset : Int) (length : Nat) : String :=
  toString offset ++ ", " ++ toString length

/-- The body of the `for (i, byte) in data` loop of `LempelZiv::compress`,
accumulating the emitted tokens.  `n` is `data.len()`; the loop state is the
pair (`search_buffer`, `check_for`). -/
def compress_go (n : Nat) : List (Nat × Nat) → List Nat → List Nat → List LzToken
  | [], _, _ => []
  | (i, byte) :: rest, search_buffer, check_for =>
    let check_for := check_for ++ [byte]
    let index := in_array check_for search_buffer
    if index = -1 ∨ i = n - 1 then
      let tok :=
        if check_for.length > 1 then
          let index := in_array (check_for.take (check_for.length - 1)) search_buffer
          let offset := (i : Int) - index - (check_for.length : Int)
          if (lz_token_string offset check_for.length).length > check_for.length then
            LzToken.literal i byte
          else
            LzToken.backref offset check_for.length
        else LzToken.literal i byte
      tok :: compress_go n rest (search_buffer ++ [byte]) []
    else
      compress_go n rest (search_buffer ++ [byte]) check_for

/-- `LempelZiv::compress`, as the sequence of tokens it emits.  The
`buffer_size` field of the struct (the search window, default 32768) is a
parameter here exactly because the source never reads it: the emitted
tokens do not depend on it. -/
def LempelZiv.compress (data : List Nat) (buffer_size : Nat) : List LzToken :=
  compress_go data.length data.enum [] []

/-- C3: the spec claims every emitted match has length ≤ 258 and distance
≤ 32768, with the distance never reaching back past the `buffer_size`
window.  The source never reads `buffer_size` and caps nothing: on the
ten-byte input `[1,2,3,4,5,1,2,3,4,6]` with a window of 1 byte, it emits
the back-reference `(distance 4, length 5)`, whose distance exceeds the
window; the token stream is independent of `buffer_size` altogether. -/
theorem c3_compress_ignores_window :
    LzToken.backref 4 5 ∈ LempelZiv.compress [1, 2, 3, 4, 5, 1, 2, 3, 4, 6] 1 ∧
    (4 : Int) > 1 ∧
    (∀ w1 w2 : Nat, ∀ data : List Nat,
      LempelZiv.compress data w1 = LempelZiv.compress data w2) := by
  refine ⟨by decide, by decide, fun w1 w2 data => rfl⟩

end Chameleon

namespace Chameleon

/-! ## `src/compression/huffman.rs`

The `Node` struct is mirrored field for field; `left`/`right` are `Option`
exactly as in the source (branches are *built* with both children present,
which the tree-invariant theorems below prove).  `Rc<RefCell<...>>` sharing
disappears in the functional model: each popped node is used exactly once as
a child, so the heap of shared pointers becomes a heap of values. -/

inductive Node where
  | mk (leaf : Bool) (value : Nat) (frequency : Nat) (address : Nat) (length : Nat)
      (left : Option Node) (right : Option Node)
deriving Repr

def Node.leaf : Node → Bool
  | .mk b _ _ _ _ _ _ => b

def Node.value : Node → Nat
  | .mk _ v _ _ _ _ _ => v

def Node.frequency : Node → Nat
  | .mk _ _ f _ _ _ _ => f

def Node.address : Node → Nat
  | .mk _ _ _ a _ _ _ => a

def Node.length : Node → Nat
  | .mk _ _ _ _ n _ _ => n

def Node.left : Node → Option Node
  | .mk _ _ _ _ _ l _ => l

def Node.right : Node → Option Node
  | .mk _ _ _ _ _ _ r => r

/-- `Node::new()`. -/
def Node.new : Node := .mk false 0 0 0 0 none none

/-- `u32::saturating_add`. -/
def u32_saturating_add (a b : Nat) : Nat := min (a + b) (2 ^ 32 - 1)

/-- One comparison of the source's `BinaryHeap<Reverse<Rc<RefCell<Node>>>>`:
`Reverse(a) <= Reverse(b)` holds iff `b.frequency <= a.frequency`, because the
`Ord` instance of `Node` compares frequencies only. -/
def revLe (a b : Node) : Bool := decide (b.frequency ≤ a.frequency)

/-- The loop of `BinaryHeap::sift_up`, with a structural fuel argument (the
hole position strictly decreases, so `fuel = pos` never runs out; the
`fuel = 0, pos > 0` filler arm is unreachable from `sift_up`). -/
def sift_up_go : Nat → List Node → Node → Nat → List Node
  | _, data, element, 0 => data.set 0 element
  | 0, data, element, pos => data.set pos element
  | fuel + 1, data, element, pos + 1 =>
    let parent := (pos + 1 - 1) / 2
    if revLe element (data.getD parent Node.new) then data.set (pos + 1) element
    else sift_up_go fuel (data.set (pos + 1) (data.getD parent Node.new)) element parent

/-- `BinaryHeap::sift_up` from the Rust standard library (both call sites in
`BinaryHeap` as used here have `start = 0`).  `data` has a hole at `pos`
whose stale content is ignored; `element` is the value being sifted. -/
def sift_up (data : List Node) (element : Node) (pos : Nat) : List Node :=
  sift_up_go pos data element pos

/-- `BinaryHeap::push`: append, then sift the new element up from the end. -/
def heap_push (data : List Node) (item : Node) : List Node :=
  sift_up (data ++ [item]) item data.length

/-- The descent loop of `BinaryHeap::sift_down_to_bottom`, with a structural
fuel argument (the hole position strictly increases and stays below `en`, so
`fuel = en` never runs out): walk the hole at `pos` to the bottom of the heap
of size `en`, always moving up the child that compares greater in `Reverse`
order (i.e. the smaller frequency, preferring the right child on ties).
Returns the data and the final hole position. -/
def sift_down_go : Nat → List Node → Nat → Nat → List Node × Nat
  | 0, data, pos, _ => (data, pos)
  | fuel + 1, data, pos, en =>
    let child := 2 * pos + 1
    if child + 2 ≤ en then
      let child2 := if revLe (data.getD child Node.new) (data.getD (child + 1) Node.new)
        then child + 1 else child
      sift_down_go fuel (data.set pos (data.getD child2 Node.new)) child2 en
    else if child + 1 = en then (data.set pos (data.getD child Node.new), child)
    else (data, pos)

/-- `BinaryHeap::sift_down_to_bottom` at position 0 (its only call site):
descend the hole to the bottom, then sift the displaced `element` back up. -/
def sift_down_to_bottom (data : List Node) (element : Node) : List Node :=
  let r := sift_down_go data.length data 0 data.length
  sift_up r.1 element r.2

/-- `BinaryHeap::pop`: remove the last element; if the heap is still
nonempty, swap it with the root and sift it down.  Returns the popped
element and the remaining heap. -/
def heap_pop (data : List Node) : Option (Node × List Node) :=
  match data.getLast? with
  | none => none
  | some item =>
    let rest := data.dropLast
    if rest.length = 0 then some (item, rest)
    else some (rest.getD 0 Node.new, sift_down_to_bottom rest item)

/-- The 256 leaves seeded by `create_huffman_tree`, one per byte value. -/
def huffman_leaves (frequencies : Nat → Nat) : List Node :=
  (List.range 256).map (fun i => Node.mk true i (frequencies i) 0 0 none none)

/-- The heap after the 256 `nodes.push(Reverse(node))` calls. -/
def initial_heap (frequencies : Nat → Nat) : List Node :=
  (huffman_leaves frequencies).foldl heap_push []

/-- The `while nodes.len() > 1` merge loop of `create_huffman_tree`.  The
first component is the heap exactly as the source leaves it; the second is a
trace of the popped frequencies in pop order (used to state the ordering
properties of the queue). -/
def merge_loop : Nat → List Node → List Node × List Nat
  | 0, data => (data, [])
  | fuel + 1, data =>
    if data.length > 1 then
      match heap_pop data with
      | none => (data, [])
      | some (node_1, d1) =>
        match heap_pop d1 with
        | none => (d1, [node_1.frequency])
        | some (node_2, d2) =>
          let parent := Node.mk false 0
            (u32_saturating_add node_1.frequency node_2.frequency) 0 0
            (some node_1) (some node_2)
          let r := merge_loop fuel (heap_push d2 parent)
          (r.1, node_1.frequency :: node_2.frequency :: r.2)
    else (data, [])

/-- The root node popped after the merge loop (`nodes.pop().unwrap().0`). -/
def create_tree_root (frequencies : Nat → Nat) : Node :=
  match heap_pop (merge_loop (initial_heap frequencies).length (initial_heap frequencies)).1 with
  | some (root, _) => root
  | none => Node.new

/-- The address-assignment traversal of `create_huffman_tree`, with the
addresses to install at the current node passed as arguments (`u32`
wrapping of `address << 1` written out).  The source walks the tree with an
explicit stack, pushing right then left; as each subtree is disjoint, the
stack order does not affect the resulting fields, so the traversal is a
structural recursion here.  The mislabeled-branch arm (source: warn, relabel
as leaf, abandon the traversal) relabels just that node; the invariant
theorems below show it is unreachable for trees built by the merge loop. -/
def assign_go : Node → Nat → Nat → Node
  | .mk leaf value frequency _ _ left right, addr, len =>
    if leaf then .mk leaf value frequency addr len left right
    else
      match left, right with
      | some l, some r =>
        .mk leaf value frequency addr len
          (some (assign_go l ((addr <<< 1) % 2 ^ 32) (len + 1)))
          (some (assign_go r (((addr <<< 1) % 2 ^ 32) + 1) (len + 1)))
      | _, _ => .mk true value frequency addr len left right

/-- `create_huffman_tree`, as the fully addressed tree hanging off the root
(the source's `leaves` array holds shared pointers *into* this tree; the
per-value lookup is `find_leaf` below). -/
def create_huffman_tree_root (frequencies : Nat → Nat) : Node :=
  let root := create_tree_root frequencies
  assign_go root root.address root.length

/-- The `(address, length)` pair of the leaf carrying byte value `v` — what
the source reads from `leaves[v]` after tree construction. -/
def find_leaf (n : Node) (v : Nat) : Option (Nat × Nat) :=
  match n with
  | .mk leaf value _ address length left right =>
    if leaf then (if value = v then some (address, length) else none)
    else
      match left, right with
      | some l, some r =>
        match find_leaf l v with
        | some x => some x
        | none => find_leaf r v
      | _, _ => none

end Chameleon

namespace Chameleon

/-- The frequency-counting fold at the top of `Huffman::encode`
(`saturating_add 1` per occurrence). -/
def count_frequencies (input : List Nat) : Nat → Nat :=
  input.foldl (fun acc byte => fun i => if i = byte then u32_saturating_add (acc byte) 1 else acc i)
    (fun _ => 0)

/-- `u32::to_le_bytes`. -/
def u32_to_le_bytes (v : Nat) : List Nat :=
  [v % 256, v / 256 % 256, v / 65536 % 256, v / 16777216 % 256]

/-- The 1024-byte serialized frequency table prepended by `Huffman::encode`. -/
def frequency_header (frequencies : Nat → Nat) : List Nat :=
  (List.range 256).flatMap (fun i => u32_to_le_bytes (frequencies i))

/-- The inner bit-packing loop of `Huffman::encode`: emit the top `k` bits of
the `u32` `code`, MSB first, through the partial-byte state
`(next, filled, output)`. -/
def emit_code_bits : Nat → Nat → Nat × Nat × List Nat → Nat × Nat × List Nat
  | 0, _, st => st
  | k + 1, code, (next, filled, output) =>
    let next := (next <<< 1) % 256
    let next := if code &&& 2147483648 > 0 then next + 1 else next
    let filled := filled + 1
    let code := (code <<< 1) % 2 ^ 32
    if filled = 8 then emit_code_bits k code (0, 0, output ++ [next])
    else emit_code_bits k code (next, filled, output)

/-- The per-symbol loop of `Huffman::encode`.  `none` models the source
panicking: `leaf.address << (32 - length)` is an arithmetic error unless
`1 ≤ length ≤ 32` (`32 - length` underflows for longer codes, and a `u32`
shift by 32 overflows for `length = 0`); `find_leaf` itself cannot fail on
the trees the construction builds. -/
def encode_symbols (tree : Node) : List Nat → Nat × Nat × List Nat →
    Option (Nat × Nat × List Nat)
  | [], st => some st
  | v :: rest, st =>
    match find_leaf tree v with
    | none => none
    | some (address, length) =>
      if 1 ≤ length ∧ length ≤ 32 then
        let code := (address <<< (32 - length)) % 2 ^ 32
        encode_symbols tree rest (emit_code_bits length code st)
      else none

/-- `Huffman::encode`: the serialized frequency table, then the Huffman codes
of the input bytes packed MSB-first, the final partial byte zero-padded. -/
def Huffman.encode (input : List Nat) : Option (List Nat) :=
  let frequencies := count_frequencies input
  let tree := create_huffman_tree_root frequencies
  match encode_symbols tree input (0, 0, []) with
  | none => none
  | some (next, filled, body) =>
    some (frequency_header frequencies ++
      (if filled ≠ 0 then body ++ [(next <<< (8 - filled)) % 256] else body))

/-- The `scan` in `Huffman::decode` that rebuilds the `u32` frequencies from
little-endian byte quadruples (trailing bytes that do not fill a quadruple
are dropped, as in the source). -/
def parse_frequencies : List Nat → List Nat
  | b0 :: b1 :: b2 :: b3 :: rest =>
    (b0 + b1 * 256 + b2 * 65536 + b3 * 16777216) :: parse_frequencies rest
  | _ => []

/-- Eight iterations of the bit-consuming loop of `Huffman::decode` for one
input byte `v`, starting from state `(current, count, output)`.
`Sum.inl` is the source's early `return Ok(output)` when `count` reaches 0;
`Sum.inr` hands the state to the next byte.  The error on a missing child is
the source's `ok_or_else`; the error on `count = 0` at a leaf models the
`u64` underflow panic of `count -= 1` (unreachable in the theorems below). -/
def decode_step (root : Node) : Nat → Nat → Node × Nat × List Nat →
    Except String (List Nat ⊕ (Node × Nat × List Nat))
  | 0, _, st => Except.ok (Sum.inr st)
  | k + 1, v, (current, count, output) =>
    match (if v &&& 128 = 0 then current.left else current.right) with
    | none => Except.error "Error: Error while decoding."
    | some child =>
      let v2 := (v <<< 1) % 256
      if child.leaf then
        if count = 0 then Except.error "panic: count underflow"
        else if count - 1 = 0 then Except.ok (Sum.inl (output ++ [child.value]))
        else decode_step root k v2 (root, count - 1, output ++ [child.value])
      else decode_step root k v2 (child, count, output)

/-- The byte loop of `Huffman::decode`. -/
def decode_loop (root : Node) : List Nat → Node × Nat × List Nat →
    Except String (List Nat)
  | [], (_, _, output) => Except.ok output
  | v :: rest, st =>
    match decode_step root 8 v st with
    | Except.error e => Except.error e
    | Except.ok (Sum.inl output) => Except.ok output
    | Except.ok (Sum.inr st2) => decode_loop root rest st2

/-- `Huffman::decode`. -/
def Huffman.decode (input : List Nat) : Except String (List Nat) :=
  if input.length < 4 * 256 then Except.error "Error: Error decoding"
  else
    let freq_list := parse_frequencies (input.take (4 * 256))
    let count := freq_list.foldl (· + ·) 0
    let rest := input.drop (4 * 256)
    if freq_list.length = 256 then
      let frequencies := fun v => freq_list.getD v 0
      let root := create_huffman_tree_root frequencies
      decode_loop root rest (root, count, [])
    else Except.error "Error: Error decoding."

/-- C10: an input shorter than the 1024-byte serialized frequency table makes
`Huffman::decode` fail up front; the error branch returns no output bytes. -/
theorem c10_short_input_is_error (input : List Nat) (h : input.length < 1024) :
    Huffman.decode input = Except.error "Error: Error decoding" := by
  unfold Huffman.decode
  rw [if_pos (by omega)]

/-- Witness for `c10_short_input_is_error` on the empty input. -/
theorem c10_short_input_is_error_witness :
    Huffman.decode [] = Except.error "Error: Error decoding" :=
  c10_short_input_is_error [] (by decide)

end Chameleon

namespace Chameleon

/-! ## Heap permutation lemmas

The sift routines work on a buffer with a *hole*: the entry at the hole
position is stale and the sifted element logically takes its place.  The
lemmas below capture that the heap operations permute the stored multiset. -/

theorem getD_set_ne {α : Type} (l : List α) {i j : Nat} (v d : α) (h : i ≠ j) :
    (l.set i v).getD j d = l.getD j d := by
  simp [List.getD, List.getElem?_set_ne h]

theorem set_swap_perm {α : Type} (l : List α) (i : Nat) (v d : α) (h : i < l.length) :
    (l.getD i d :: l.set i v).Perm (v :: l) := by
  induction l generalizing i with
  | nil => simp at h
  | cons a t ih =>
    cases i with
    | zero => simpa [List.getD] using List.Perm.swap v a t
    | succ j =>
      have hj : j < t.length := by simpa using h
      have e1 : (a :: t).getD (j + 1) d :: (a :: t).set (j + 1) v
          = t.getD j d :: a :: t.set j v := by simp [List.getD]
      rw [e1]
      have s1 : (t.getD j d :: a :: t.set j v).Perm (a :: t.getD j d :: t.set j v) :=
        List.Perm.swap a _ _
      have s2 : (a :: (t.getD j d :: t.set j v)).Perm (a :: (v :: t)) := (ih j hj).cons a
      have s3 : (a :: v :: t).Perm (v :: a :: t) := List.Perm.swap v a t
      exact (s1.trans s2).trans s3

theorem set_set_perm {α : Type} (l : List α) (p q : Nat) (v d : α)
    (hp : p < l.length) (hq : q < l.length) (hne : q ≠ p) :
    ((l.set p (l.getD q d)).set q v).Perm (l.set p v) := by
  have hlenA : (l.set p (l.getD q d)).length = l.length := by simp
  have h1 : (l.getD p d :: l.set p (l.getD q d)).Perm (l.getD q d :: l) :=
    set_swap_perm l p (l.getD q d) d hp
  have h2 : ((l.set p (l.getD q d)).getD q d :: (l.set p (l.getD q d)).set q v).Perm
      (v :: l.set p (l.getD q d)) :=
    set_swap_perm _ q v d (by omega)
  rw [getD_set_ne l (l.getD q d) d (fun hcon => hne hcon.symm)] at h2
  have h3 : (l.getD p d :: l.set p v).Perm (v :: l) := set_swap_perm l p v d hp
  have s1 : (l.getD q d :: l.getD p d :: (l.set p (l.getD q d)).set q v).Perm
      (l.getD p d :: l.getD q d :: (l.set p (l.getD q d)).set q v) := List.Perm.swap _ _ _
  have s2 : (l.getD p d :: (l.getD q d :: (l.set p (l.getD q d)).set q v)).Perm
      (l.getD p d :: (v :: l.set p (l.getD q d))) := h2.cons _
  have s3 : (l.getD p d :: v :: l.set p (l.getD q d)).Perm
      (v :: l.getD p d :: l.set p (l.getD q d)) := List.Perm.swap _ _ _
  have s4 : (v :: (l.getD p d :: l.set p (l.getD q d))).Perm (v :: (l.getD q d :: l)) :=
    h1.cons v
  have s5 : (v :: l.getD q d :: l).Perm (l.getD q d :: v :: l) := List.Perm.swap _ _ _
  have s6 : (l.getD q d :: (v :: l)).Perm (l.getD q d :: (l.getD p d :: l.set p v)) :=
    (h3.symm).cons _
  have chain := ((((s1.trans s2).trans s3).trans s4).trans s5).trans s6
  exact (chain.cons_inv).cons_inv

theorem sift_up_go_length (fuel : Nat) (data : List Node) (element : Node) (pos : Nat) :
    (sift_up_go fuel data element pos).length = data.length := by
  induction fuel generalizing data pos with
  | zero => cases pos <;> simp [sift_up_go]
  | succ f ih =>
    cases pos with
    | zero => simp [sift_up_go]
    | succ p =>
      simp only [sift_up_go]
      split
      · simp
      · rw [ih]
        simp

theorem sift_up_go_perm (fuel : Nat) (data : List Node) (element : Node) (pos : Nat)
    (h : pos < data.length) :
    (sift_up_go fuel data element pos).Perm (data.set pos element) := by
  induction fuel generalizing data pos with
  | zero => cases pos <;> simp [sift_up_go]
  | succ f ih =>
    cases pos with
    | zero => simp [sift_up_go]
    | succ p =>
      simp only [sift_up_go]
      split
      · exact List.Perm.refl _
      · have hpar : (p + 1 - 1) / 2 < data.length := by omega
        have hrec := ih (data.set (p + 1) (data.getD ((p + 1 - 1) / 2) Node.new))
          ((p + 1 - 1) / 2) (by simpa using hpar)
        refine hrec.trans ?_
        exact set_set_perm data (p + 1) ((p + 1 - 1) / 2) element Node.new h hpar (by omega)

theorem set_append_last {α : Type} (l : List α) (a b : α) :
    (l ++ [a]).set l.length b = l ++ [b] := by
  induction l with
  | nil => rfl
  | cons x t ih => simp [List.set, ih]

theorem heap_push_perm (data : List Node) (item : Node) :
    (heap_push data item).Perm (item :: data) := by
  unfold heap_push sift_up
  have h := sift_up_go_perm data.length (data ++ [item]) item data.length (by simp)
  rw [set_append_last] at h
  exact h.trans (List.perm_append_singleton item data)

theorem heap_push_length (data : List Node) (item : Node) :
    (heap_push data item).length = data.length + 1 := by
  unfold heap_push sift_up
  rw [sift_up_go_length]
  simp

end Chameleon

namespace Chameleon

theorem sift_down_go_spec (fuel : Nat) (data : List Node) (pos en : Nat)
    (hpos : pos < en) (hen : en ≤ data.length) :
    (sift_down_go fuel data pos en).2 < en ∧
    (sift_down_go fuel data pos en).1.length = data.length ∧
    ∀ X : Node,
      ((sift_down_go fuel data pos en).1.set (sift_down_go fuel data pos en).2 X).Perm
        (data.set pos X) := by
  induction fuel generalizing data pos with
  | zero =>
    refine ⟨hpos, rfl, fun X => List.Perm.refl _⟩
  | succ f ih =>
    simp only [sift_down_go]
    split
    · -- two children in range: move the preferred child up and descend
      rename_i hc2
      set child2 := if revLe (data.getD (2 * pos + 1) Node.new)
          (data.getD (2 * pos + 1 + 1) Node.new) then 2 * pos + 1 + 1 else 2 * pos + 1
        with hchild2
      have hc2lt : child2 < en := by
        rw [hchild2]
        split <;> omega
      have hc2pos : pos < child2 := by
        rw [hchild2]
        split <;> omega
      have hlen2 : en ≤ (data.set pos (data.getD child2 Node.new)).length := by
        simpa using hen
      obtain ⟨ih1, ih2, ih3⟩ := ih (data.set pos (data.getD child2 Node.new)) child2 hc2lt hlen2
      refine ⟨ih1, by simpa using ih2, fun X => ?_⟩
      refine (ih3 X).trans ?_
      exact set_set_perm data pos child2 X Node.new (by omega) (by omega) (by omega)
    · -- at most one child in range
      split
      · -- exactly the last element is a child: one final move
        rename_i hc2 hc1
        refine ⟨by omega, by simp, fun X => ?_⟩
        exact set_set_perm data pos (2 * pos + 1) X Node.new (by omega) (by omega) (by omega)
      · exact ⟨hpos, rfl, fun X => List.Perm.refl _⟩

theorem sift_down_to_bottom_perm (data : List Node) (element : Node) (h : data.length ≠ 0) :
    (sift_down_to_bottom data element).Perm (data.set 0 element) := by
  unfold sift_down_to_bottom sift_up
  obtain ⟨h1, h2, h3⟩ := sift_down_go_spec data.length data 0 data.length (by omega) le_rfl
  have hup := sift_up_go_perm (sift_down_go data.length data 0 data.length).2
    (sift_down_go data.length data 0 data.length).1 element
    (sift_down_go data.length data 0 data.length).2 (by omega)
  exact hup.trans (h3 element)

theorem sift_down_to_bottom_length (data : List Node) (element : Node) :
    (sift_down_to_bottom data element).length = data.length := by
  unfold sift_down_to_bottom sift_up
  rw [sift_up_go_length]
  by_cases h : data.length = 0
  · rw [h]
    simp only [sift_down_go]
    exact h
  · exact (sift_down_go_spec data.length data 0 data.length (by omega) le_rfl).2.1

theorem heap_pop_nil : heap_pop [] = none := rfl

/-- Unfolding of `heap_pop` on a nonempty buffer. -/
theorem heap_pop_eq (data : List Node) (hne : data ≠ []) :
    heap_pop data =
      if data.dropLast.length = 0 then some (data.getLast hne, data.dropLast)
      else some (data.dropLast.getD 0 Node.new,
        sift_down_to_bottom data.dropLast (data.getLast hne)) := by
  unfold heap_pop
  rw [List.getLast?_eq_getLast data hne]

theorem heap_pop_isSome (data : List Node) (h : data ≠ []) :
    ∃ x d2, heap_pop data = some (x, d2) := by
  rw [heap_pop_eq data h]
  by_cases hr : data.dropLast.length = 0
  · rw [if_pos hr]
    exact ⟨_, _, rfl⟩
  · rw [if_neg hr]
    exact ⟨_, _, rfl⟩

theorem heap_pop_perm (data : List Node) (x : Node) (d2 : List Node)
    (h : heap_pop data = some (x, d2)) : (x :: d2).Perm data := by
  have hne : data ≠ [] := by
    rintro rfl
    cases h
  rw [heap_pop_eq data hne] at h
  have hdata : data.dropLast ++ [data.getLast hne] = data :=
    List.dropLast_append_getLast hne
  by_cases hr : data.dropLast.length = 0
  · rw [if_pos hr] at h
    have hxd := Option.some.inj h
    injection hxd with hx hd
    subst hx
    subst hd
    exact ((List.perm_append_singleton _ data.dropLast).symm).trans (by rw [hdata])
  · rw [if_neg hr] at h
    have hxd := Option.some.inj h
    injection hxd with hx hd
    subst hx
    subst hd
    have hperm1 : (sift_down_to_bottom data.dropLast (data.getLast hne)).Perm
        (data.dropLast.set 0 (data.getLast hne)) := sift_down_to_bottom_perm _ _ hr
    have hperm2 : (data.dropLast.getD 0 Node.new ::
        data.dropLast.set 0 (data.getLast hne)).Perm
        (data.getLast hne :: data.dropLast) :=
      set_swap_perm _ 0 (data.getLast hne) Node.new (by omega)
    have hperm3 : (data.getLast hne :: data.dropLast).Perm data :=
      ((List.perm_append_singleton _ data.dropLast).symm).trans (by rw [hdata])
    exact ((hperm1.cons _).trans hperm2).trans hperm3

theorem heap_pop_length (data : List Node) (x : Node) (d2 : List Node)
    (h : heap_pop data = some (x, d2)) : d2.length + 1 = data.length := by
  have := (heap_pop_perm data x d2 h).length_eq
  simpa using this

end Chameleon

namespace Chameleon

/-! ## Structure of the trees built by `create_huffman_tree` (claim C7) -/

/-- Shape invariant of every node that ever sits in the construction heap:
leaves carry no children, and every branch carries exactly two children and
the saturating sum of their frequencies. -/
def WFNode : Node → Prop
  | .mk true _ _ _ _ none none => True
  | .mk false _ frequency _ _ (some l) (some r) =>
    frequency = u32_saturating_add l.frequency r.frequency ∧ WFNode l ∧ WFNode r
  | _ => False

/-- The claimed invariant of the finished (addressed) tree: every branch has
exactly two children, the left child's address appends a 0 bit and the right
child's a 1 bit to the parent's (as `u32` values), both children are one
level longer, and the branch frequency is the saturating sum. -/
def TreeInv : Node → Prop
  | .mk true _ _ _ _ _ _ => True
  | .mk false _ frequency address length (some l) (some r) =>
    l.address = (address <<< 1) % 2 ^ 32 ∧ l.length = length + 1 ∧
    r.address = (address <<< 1) % 2 ^ 32 + 1 ∧ r.length = length + 1 ∧
    frequency = u32_saturating_add l.frequency r.frequency ∧
    TreeInv l ∧ TreeInv r
  | _ => False

theorem assign_go_address (n : Node) (a len : Nat) : (assign_go n a len).address = a := by
  obtain ⟨leaf, v, f, a0, l0, left, right⟩ := n
  cases leaf <;> cases left <;> cases right <;> simp [assign_go, Node.address]

theorem assign_go_length (n : Node) (a len : Nat) : (assign_go n a len).length = len := by
  obtain ⟨leaf, v, f, a0, l0, left, right⟩ := n
  cases leaf <;> cases left <;> cases right <;> simp [assign_go, Node.length]

theorem assign_go_value (n : Node) (a len : Nat) : (assign_go n a len).value = n.value := by
  obtain ⟨leaf, v, f, a0, l0, left, right⟩ := n
  cases leaf <;> cases left <;> cases right <;> simp [assign_go, Node.value]

theorem assign_go_frequency (n : Node) (a len : Nat) :
    (assign_go n a len).frequency = n.frequency := by
  obtain ⟨leaf, v, f, a0, l0, left, right⟩ := n
  cases leaf <;> cases left <;> cases right <;> simp [assign_go, Node.frequency]

theorem assign_go_wf : ∀ (n : Node), WFNode n → ∀ a len : Nat, TreeInv (assign_go n a len)
  | .mk true v f a0 l0 none none, _, a, len => by
    simp [assign_go, TreeInv]
  | .mk false v f a0 l0 (some l) (some r), hwf, a, len => by
    obtain ⟨hf, hl, hr⟩ := hwf
    have ihl := assign_go_wf l hl ((a <<< 1) % 2 ^ 32) (len + 1)
    have ihr := assign_go_wf r hr ((a <<< 1) % 2 ^ 32 + 1) (len + 1)
    simp only [assign_go, Bool.false_eq_true, if_false, TreeInv]
    exact ⟨assign_go_address .., assign_go_length .., assign_go_address ..,
      assign_go_length .., by rw [assign_go_frequency, assign_go_frequency, hf], ihl, ihr⟩
  | .mk true _ _ _ _ none (some _), hwf, _, _ => by simp [WFNode] at hwf
  | .mk true _ _ _ _ (some _) _, hwf, _, _ => by simp [WFNode] at hwf
  | .mk false _ _ _ _ none _, hwf, _, _ => by simp [WFNode] at hwf
  | .mk false _ _ _ _ (some _) none, hwf, _, _ => by simp [WFNode] at hwf

/-- The property every heap entry keeps through the whole construction. -/
def HeapNodeInv (n : Node) : Prop :=
  WFNode n ∧ n.address = 0 ∧ n.length = 0

theorem merge_loop_preserves (P : Node → Prop)
    (hP : ∀ n1 n2 : Node, P n1 → P n2 →
      P (Node.mk false 0 (u32_saturating_add n1.frequency n2.frequency) 0 0
          (some n1) (some n2))) :
    ∀ (fuel : Nat) (data : List Node), (∀ x ∈ data, P x) →
      ∀ x ∈ (merge_loop fuel data).1, P x := by
  intro fuel
  induction fuel with
  | zero => intro data h x hx; exact h x hx
  | succ f ih =>
    intro data h x hx
    simp only [merge_loop] at hx
    by_cases hlen : data.length > 1
    · rw [if_pos hlen] at hx
      rcases hpop1 : heap_pop data with _ | ⟨n1, d1⟩
      · simp only [hpop1] at hx
        exact h x hx
      · have hmem1 := heap_pop_perm data n1 d1 hpop1
        have hn1 : P n1 := h n1 (hmem1.mem_iff.mp (by simp))
        have hd1 : ∀ y ∈ d1, P y := fun y hy => h y (hmem1.mem_iff.mp (by simp [hy]))
        rcases hpop2 : heap_pop d1 with _ | ⟨n2, d2⟩
        · simp only [hpop1, hpop2] at hx
          exact hd1 x hx
        · simp only [hpop1, hpop2] at hx
          have hmem2 := heap_pop_perm d1 n2 d2 hpop2
          have hn2 : P n2 := hd1 n2 (hmem2.mem_iff.mp (by simp))
          have hd2 : ∀ y ∈ d2, P y := fun y hy => hd1 y (hmem2.mem_iff.mp (by simp [hy]))
          refine ih (heap_push d2 (Node.mk false 0
            (u32_saturating_add n1.frequency n2.frequency) 0 0 (some n1) (some n2))) ?_ x hx
          intro y hy
          have := (heap_push_perm d2 _).mem_iff.mp hy
          rcases List.mem_cons.mp this with hy1 | hy2
          · exact hy1 ▸ hP n1 n2 hn1 hn2
          · exact hd2 y hy2
    · rw [if_neg hlen] at hx
      exact h x hx

end Chameleon

namespace Chameleon

theorem foldl_push_perm : ∀ (l s : List Node), (l.foldl heap_push s).Perm (l ++ s)
  | [], s => by simp
  | a :: t, s => by
    have ih := foldl_push_perm t (heap_push s a)
    have hpush : (t ++ heap_push s a).Perm (t ++ (a :: s)) :=
      (heap_push_perm s a).append_left t
    have hmid : (t ++ (a :: s)).Perm (a :: (t ++ s)) := List.perm_middle
    simpa using (ih.trans hpush).trans hmid

theorem initial_heap_perm (frequencies : Nat → Nat) :
    (initial_heap frequencies).Perm (huffman_leaves frequencies) := by
  unfold initial_heap
  simpa using foldl_push_perm (huffman_leaves frequencies) []

theorem initial_heap_mem_inv (frequencies : Nat → Nat) :
    ∀ x ∈ initial_heap frequencies, HeapNodeInv x := by
  intro x hx
  have := (initial_heap_perm frequencies).mem_iff.mp hx
  simp only [huffman_leaves, List.mem_map, List.mem_range] at this
  obtain ⟨i, _, rfl⟩ := this
  exact ⟨trivial, rfl, rfl⟩

theorem merge_loop_min_length :
    ∀ (fuel : Nat) (data : List Node), 1 ≤ data.length →
      1 ≤ (merge_loop fuel data).1.length := by
  intro fuel
  induction fuel with
  | zero => intro data h; simpa [merge_loop] using h
  | succ f ih =>
    intro data h
    simp only [merge_loop]
    by_cases hlen : data.length > 1
    · rw [if_pos hlen]
      obtain ⟨n1, d1, hpop1⟩ := heap_pop_isSome data (by
        intro hcon
        rw [hcon] at h
        simp at h)
      have hlen1 : d1.length + 1 = data.length := heap_pop_length data n1 d1 hpop1
      obtain ⟨n2, d2, hpop2⟩ := heap_pop_isSome d1 (by
        intro hcon
        rw [hcon] at hlen1
        simp at hlen1
        omega)
      have hlen2 : d2.length + 1 = d1.length := heap_pop_length d1 n2 d2 hpop2
      simp only [hpop1, hpop2]
      refine ih _ ?_
      rw [heap_push_length]
      omega
    · rw [if_neg hlen]
      exact h

theorem create_tree_root_inv (frequencies : Nat → Nat) :
    HeapNodeInv (create_tree_root frequencies) := by
  unfold create_tree_root
  have hlen0 : (initial_heap frequencies).length = 256 := by
    have := (initial_heap_perm frequencies).length_eq
    simpa [huffman_leaves] using this
  have hall : ∀ x ∈ (merge_loop (initial_heap frequencies).length
      (initial_heap frequencies)).1, HeapNodeInv x := by
    refine merge_loop_preserves HeapNodeInv ?_ _ _ (initial_heap_mem_inv frequencies)
    intro n1 n2 h1 h2
    exact ⟨⟨rfl, h1.1, h2.1⟩, rfl, rfl⟩
  have hlen : 1 ≤ (merge_loop (initial_heap frequencies).length
      (initial_heap frequencies)).1.length :=
    merge_loop_min_length _ _ (by omega)
  obtain ⟨x, d2, hpop⟩ := heap_pop_isSome
      (merge_loop (initial_heap frequencies).length (initial_heap frequencies)).1 (by
    intro hcon
    rw [hcon] at hlen
    simp at hlen)
  rw [hpop]
  exact hall x ((heap_pop_perm _ x d2 hpop).mem_iff.mp (by simp))

set_option maxRecDepth 8192 in
set_option maxHeartbeats 1000000 in
/-- C7: for every frequency table, the finished tree satisfies the claimed
invariants: the root's address is empty (value 0, length 0); every branch
has exactly two children; each left child's address is the parent's shifted
left (`u32`) with 0 appended and each right child's with 1 appended, their
lengths one more than the parent's; and each branch's frequency is the
saturating sum of its children's. -/
theorem c7_huffman_tree_invariants (frequencies : Nat → Nat) :
    TreeInv (create_huffman_tree_root frequencies) ∧
    (create_huffman_tree_root frequencies).address = 0 ∧
    (create_huffman_tree_root frequencies).length = 0 := by
  have hinv := create_tree_root_inv frequencies
  have heq : create_huffman_tree_root frequencies
      = assign_go (create_tree_root frequencies) (create_tree_root frequencies).address
        (create_tree_root frequencies).length := rfl
  rw [heq]
  generalize create_tree_root frequencies = root at hinv ⊢
  obtain ⟨hwf, haddr, hlen⟩ := hinv
  rw [haddr, hlen]
  exact ⟨assign_go_wf _ hwf _ _, assign_go_address .., assign_go_length ..⟩

end Chameleon

namespace Chameleon

/-! ## Heap ordering (claim C8)

`IsMinHeap` is the standard array-heap invariant for the construction queue:
under the source's `Reverse` ordering (compare frequencies only), every
parent's frequency is at most its children's. -/

def nodeKey (l : List Node) (i : Nat) : Nat := (l.getD i Node.new).frequency

def IsMinHeap (data : List Node) : Prop :=
  ∀ c < data.length, 1 ≤ c → nodeKey data ((c - 1) / 2) ≤ nodeKey data c

theorem getD_set_eq {α : Type} (l : List α) {i : Nat} (v d : α) (h : i < l.length) :
    (l.set i v).getD i d = v := by
  rw [List.getD_eq_getElem _ _ (by simpa using h)]
  simp [List.getElem_set_self]

theorem nodeKey_set_eq (l : List Node) {i : Nat} (v : Node) (h : i < l.length) :
    nodeKey (l.set i v) i = v.frequency := by
  unfold nodeKey
  rw [getD_set_eq l v Node.new h]

theorem nodeKey_set_ne (l : List Node) {i j : Nat} (v : Node) (h : i ≠ j) :
    nodeKey (l.set i v) j = nodeKey l j := by
  unfold nodeKey
  rw [getD_set_ne l v Node.new h]

/-- Moving the entry at `j` into position `i` leaves position `i` carrying
the key of `j`. -/
theorem nodeKey_set_getD (l : List Node) {i j : Nat} (hi2 : i < l.length)
    (hj : j < l.length) :
    nodeKey (l.set i (l.getD j Node.new)) i = nodeKey l j := by
  unfold nodeKey
  rw [getD_set_eq l _ Node.new hi2]

/-- The invariant maintained by `sift_up_go`: the buffer is a heap except at
the hole `pos`, the sifted element fits below the hole, and the hole's parent
fits below the hole's children. -/
def SiftUpInv (data : List Node) (e : Node) (pos : Nat) : Prop :=
  pos < data.length ∧
  (∀ c < data.length, 1 ≤ c → c ≠ pos → (c - 1) / 2 ≠ pos →
    nodeKey data ((c - 1) / 2) ≤ nodeKey data c) ∧
  (∀ c < data.length, 1 ≤ c → (c - 1) / 2 = pos → e.frequency ≤ nodeKey data c) ∧
  (∀ c < data.length, 1 ≤ c → (c - 1) / 2 = pos → 1 ≤ pos →
    nodeKey data ((pos - 1) / 2) ≤ nodeKey data c)

theorem sift_up_go_heap :
    ∀ (fuel : Nat) (data : List Node) (e : Node) (pos : Nat), pos ≤ fuel →
      SiftUpInv data e pos → IsMinHeap (sift_up_go fuel data e pos) := by
  intro fuel
  induction fuel with
  | zero =>
    intro data e pos hfuel hinv
    obtain ⟨hlt, hi, hii, _⟩ := hinv
    interval_cases pos
    intro c hc hc1
    simp only [sift_up_go, List.length_set] at hc ⊢
    by_cases hcp : (c - 1) / 2 = 0
    · rw [hcp, nodeKey_set_eq data e hlt, nodeKey_set_ne data e (by omega)]
      exact hii c hc hc1 hcp
    · rw [nodeKey_set_ne data e (by omega), nodeKey_set_ne data e (by omega)]
      exact hi c hc hc1 (by omega) hcp
  | succ f ih =>
    intro data e pos hfuel hinv
    obtain ⟨hlt, hi, hii, hiii⟩ := hinv
    match pos with
    | 0 =>
      intro c hc hc1
      simp only [sift_up_go, List.length_set] at hc ⊢
      by_cases hcp : (c - 1) / 2 = 0
      · rw [hcp, nodeKey_set_eq data e hlt, nodeKey_set_ne data e (by omega)]
        exact hii c hc hc1 hcp
      · rw [nodeKey_set_ne data e (by omega), nodeKey_set_ne data e (by omega)]
        exact hi c hc hc1 (by omega) hcp
    | p + 1 =>
      simp only [sift_up_go]
      split
      · -- the element stops here
        rename_i hstop
        have hstople : nodeKey data ((p + 1 - 1) / 2) ≤ e.frequency := by
          simpa [revLe, nodeKey] using hstop
        intro c hc hc1
        simp only [List.length_set] at hc
        by_cases hceq : c = p + 1
        · subst hceq
          rw [nodeKey_set_eq data e hlt, nodeKey_set_ne data e (by omega)]
          exact hstople
        · by_cases hcp : (c - 1) / 2 = p + 1
          · rw [hcp, nodeKey_set_eq data e hlt, nodeKey_set_ne data e (by omega)]
            exact hii c hc hc1 hcp
          · rw [nodeKey_set_ne data e (by omega), nodeKey_set_ne data e (by omega)]
            exact hi c hc hc1 hceq hcp
      · -- the element moves up
        rename_i hmove
        have hmovelt : e.frequency < nodeKey data ((p + 1 - 1) / 2) := by
          unfold nodeKey
          simp only [revLe, decide_eq_true_eq] at hmove
          omega
        have hparlt : (p + 1 - 1) / 2 < data.length := by omega
        refine ih _ e ((p + 1 - 1) / 2) (by omega) ⟨by simpa using hparlt, ?_, ?_, ?_⟩
        · -- pairs away from the new hole
          intro c hc hc1 hcne hcpar
          simp only [List.length_set] at hc
          by_cases hceq : c = p + 1
          · exact absurd (by omega : (c - 1) / 2 = (p + 1 - 1) / 2) hcpar
          · by_cases hcp : (c - 1) / 2 = p + 1
            · rw [hcp, nodeKey_set_getD data hlt hparlt, nodeKey_set_ne data _ (by omega)]
              exact hiii c hc hc1 hcp (by omega)
            · rw [nodeKey_set_ne data _ (by omega), nodeKey_set_ne data _ (by omega)]
              exact hi c hc hc1 hceq hcp
        · -- the element fits below the new hole
          intro c hc hc1 hcpar
          simp only [List.length_set] at hc
          by_cases hceq : c = p + 1
          · subst hceq
            rw [nodeKey_set_getD data hlt hparlt]
            omega
          · rw [nodeKey_set_ne data _ (by omega)]
            have h1 := hi c hc hc1 hceq (by omega)
            rw [hcpar] at h1
            omega
        · -- the new hole's parent fits below its children
          intro c hc hc1 hcpar hpar1
          simp only [List.length_set] at hc
          rw [nodeKey_set_ne data _ (by omega)]
          have h1 := hi ((p + 1 - 1) / 2) hparlt (by omega) (by omega) (by omega)
          by_cases hceq : c = p + 1
          · subst hceq
            rw [nodeKey_set_getD data hlt hparlt]
            exact h1
          · rw [nodeKey_set_ne data _ (by omega)]
            have h2 := hi c hc hc1 hceq (by omega)
            rw [hcpar] at h2
            omega

end Chameleon

namespace Chameleon

theorem nodeKey_append (l : List Node) (x : Node) {j : Nat} (h : j < l.length) :
    nodeKey (l ++ [x]) j = nodeKey l j := by
  unfold nodeKey
  simp [List.getD, List.getElem?_append_left h]

theorem nodeKey_dropLast (l : List Node) {j : Nat} (h : j < l.length - 1) :
    nodeKey l.dropLast j = nodeKey l j := by
  unfold nodeKey
  rw [List.dropLast_eq_take]
  rw [List.getD_eq_getElem _ _ (by simp; omega), List.getD_eq_getElem _ _ (by omega)]
  simp [List.getElem_take]

theorem heap_push_is_heap (data : List Node) (item : Node) (h : IsMinHeap data) :
    IsMinHeap (heap_push data item) := by
  unfold heap_push sift_up
  refine sift_up_go_heap data.length (data ++ [item]) item data.length le_rfl
    ⟨by simp, ?_, ?_, ?_⟩
  · intro c hc hc1 hcne hcpar
    simp only [List.length_append, List.length_singleton] at hc
    have hclt : c < data.length := by omega
    rw [nodeKey_append data item hclt, nodeKey_append data item (by omega)]
    exact h c hclt hc1
  · intro c hc hc1 hcp
    simp only [List.length_append, List.length_singleton] at hc
    omega
  · intro c hc hc1 hcp _
    simp only [List.length_append, List.length_singleton] at hc
    omega

/-- The invariant maintained by the descent of `sift_down_to_bottom`: the
buffer is a heap except at the hole, and the hole's parent fits below the
hole's children. -/
def SiftDownInv (data : List Node) (pos : Nat) : Prop :=
  pos < data.length ∧
  (∀ c < data.length, 1 ≤ c → c ≠ pos → (c - 1) / 2 ≠ pos →
    nodeKey data ((c - 1) / 2) ≤ nodeKey data c) ∧
  (∀ c < data.length, 1 ≤ c → (c - 1) / 2 = pos → 1 ≤ pos →
    nodeKey data ((pos - 1) / 2) ≤ nodeKey data c)

theorem sift_down_go_heap :
    ∀ (fuel : Nat) (data : List Node) (pos : Nat), data.length - pos ≤ fuel →
      SiftDownInv data pos →
      SiftDownInv (sift_down_go fuel data pos data.length).1
          (sift_down_go fuel data pos data.length).2 ∧
        (sift_down_go fuel data pos data.length).1.length = data.length ∧
        data.length ≤ 2 * (sift_down_go fuel data pos data.length).2 + 1 := by
  intro fuel
  induction fuel with
  | zero =>
    intro data pos hfuel hinv
    exact absurd hinv.1 (by omega)
  | succ f ih =>
    intro data pos hfuel hinv
    obtain ⟨hlt, hi, hiii⟩ := hinv
    simp only [sift_down_go]
    split
    · -- both children in range
      rename_i hc2
      set child2 := if revLe (data.getD (2 * pos + 1) Node.new)
          (data.getD (2 * pos + 1 + 1) Node.new) then 2 * pos + 1 + 1 else 2 * pos + 1
        with hchild2
      have hc2lt : child2 < data.length := by
        rw [hchild2]; split <;> omega
      have hc2pos : pos < child2 := by
        rw [hchild2]; split <;> omega
      have hc2child : (child2 - 1) / 2 = pos := by
        rw [hchild2]; split <;> omega
      have hminsel : ∀ c < data.length, 1 ≤ c → (c - 1) / 2 = pos → c ≠ child2 →
          nodeKey data child2 ≤ nodeKey data c := by
        intro c hcl hc1c hcp hcne
        have hcor : c = 2 * pos + 1 ∨ c = 2 * pos + 1 + 1 := by omega
        rw [hchild2]
        unfold nodeKey
        rcases hcor with rfl | rfl
        · split
          · rename_i hsel
            simp only [revLe, decide_eq_true_eq] at hsel
            exact hsel
          · exact le_rfl
        · split
          · exact le_rfl
          · rename_i hsel
            simp only [revLe, decide_eq_true_eq] at hsel
            omega
      have hnext : SiftDownInv (data.set pos (data.getD child2 Node.new)) child2 := by
        refine ⟨by simpa using hc2lt, ?_, ?_⟩
        · intro c hc hc1 hcne hcpar
          simp only [List.length_set] at hc
          by_cases hceq : c = pos
          · subst hceq
            rw [nodeKey_set_getD data hlt hc2lt, nodeKey_set_ne data _ (by omega)]
            exact hiii child2 hc2lt (by omega) hc2child (by omega)
          · by_cases hcp : (c - 1) / 2 = pos
            · rw [hcp, nodeKey_set_getD data hlt hc2lt, nodeKey_set_ne data _ (by omega)]
              exact hminsel c hc hc1 hcp hcne
            · rw [nodeKey_set_ne data _ (by omega), nodeKey_set_ne data _ (by omega)]
              exact hi c hc hc1 hceq hcp
        · intro c hc hc1 hcp hc2ge1
          simp only [List.length_set] at hc
          have hcbig : 2 * child2 + 1 ≤ c := by omega
          rw [hc2child, nodeKey_set_getD data hlt hc2lt,
            nodeKey_set_ne data _ (by omega)]
          have h2 := hi c hc hc1 (by omega) (by omega)
          rw [hcp] at h2
          exact h2
      have hlen2 : (data.set pos (data.getD child2 Node.new)).length = data.length := by
        simp
      have := ih (data.set pos (data.getD child2 Node.new)) child2
        (by rw [hlen2]; omega) hnext
      rw [hlen2] at this
      exact this
    · rename_i hc2
      by_cases hc1 : 2 * pos + 1 + 1 = data.length
      · -- only the last element is a child: one final move
        rw [if_pos hc1]
        refine ⟨⟨by simp; omega, ?_, ?_⟩, by simp, by simp; omega⟩
        · intro c hc hc1x hcne hcpar
          simp only [List.length_set] at hc
          have hchild : (2 * pos + 1 - 1) / 2 = pos := by omega
          by_cases hceq : c = pos
          · rw [hceq, nodeKey_set_getD data hlt (by omega), nodeKey_set_ne data _ (by omega)]
            exact hiii (2 * pos + 1) (by omega) (by omega) hchild (by omega)
          · by_cases hcp : (c - 1) / 2 = pos
            · omega
            · rw [nodeKey_set_ne data _ (by omega), nodeKey_set_ne data _ (by omega)]
              exact hi c hc hc1x hceq hcp
        · intro c hc hc1x hcp hge1
          simp only [List.length_set] at hc
          omega
      · -- no child in range: the hole is already at the bottom
        rw [if_neg hc1]
        exact ⟨⟨hlt, hi, hiii⟩, rfl, by omega⟩

end Chameleon

namespace Chameleon

theorem sift_down_to_bottom_heap (data : List Node) (element : Node)
    (hne : data.length ≠ 0) (hinv : SiftDownInv data 0) :
    IsMinHeap (sift_down_to_bottom data element) := by
  unfold sift_down_to_bottom sift_up
  obtain ⟨⟨hlt, hi, hiii⟩, hlen, hbot⟩ :=
    sift_down_go_heap data.length data 0 (by omega) hinv
  refine sift_up_go_heap _ _ element _ le_rfl ⟨by omega, hi, ?_, ?_⟩
  · intro c hc hc1 hcp
    rw [hlen] at hc
    omega
  · intro c hc hc1 hcp hp1
    rw [hlen] at hc
    omega

theorem heap_root_min (data : List Node) (h : IsMinHeap data) :
    ∀ i < data.length, nodeKey data 0 ≤ nodeKey data i := by
  intro i
  induction i using Nat.strong_induction_on with
  | _ i ih =>
    intro hi2
    match i with
    | 0 => exact le_rfl
    | j + 1 =>
      have h1 := h (j + 1) hi2 (by omega)
      have h2 := ih ((j + 1 - 1) / 2) (by omega) (by omega)
      omega

theorem nodeKey_mem (data : List Node) (y : Node) (hy : y ∈ data) :
    ∃ i, i < data.length ∧ nodeKey data i = y.frequency := by
  obtain ⟨i, hi2, hget⟩ := List.mem_iff_getElem.mp hy
  refine ⟨i, hi2, ?_⟩
  unfold nodeKey
  rw [List.getD_eq_getElem _ _ hi2, hget]

theorem heap_pop_spec (data : List Node) (x : Node) (d2 : List Node)
    (hheap : IsMinHeap data) (hpop : heap_pop data = some (x, d2)) :
    (∀ y ∈ data, x.frequency ≤ y.frequency) ∧ IsMinHeap d2 := by
  have hne : data ≠ [] := by
    rintro rfl
    cases hpop
  rw [heap_pop_eq data hne] at hpop
  by_cases hr : data.dropLast.length = 0
  · rw [if_pos hr] at hpop
    have hxd := Option.some.inj hpop
    injection hxd with hx hd
    subst hx
    subst hd
    have hlen1 : data.length = 1 := by
      have h2 := List.length_dropLast data
      have h3 := List.length_pos.mpr hne
      omega
    constructor
    · intro y hy
      rcases data with _ | ⟨a, rest⟩
      · cases hne rfl
      · have hrest : rest = [] := by
          have : rest.length = 0 := by simpa using hlen1
          exact List.length_eq_zero.mp this
        subst hrest
        have hya : y = a := by simpa using hy
        subst hya
        exact le_rfl
    · intro c hc hc1
      rw [List.length_dropLast] at hc
      omega
  · rw [if_neg hr] at hpop
    have hxd := Option.some.inj hpop
    injection hxd with hx hd
    subst hx
    subst hd
    have hlen2 : 2 ≤ data.length := by
      have h2 := List.length_dropLast data
      have h3 := List.length_pos.mpr hne
      omega
    constructor
    · intro y hy
      obtain ⟨i, hi2, hkey⟩ := nodeKey_mem data y hy
      have hx0 : (data.dropLast.getD 0 Node.new).frequency = nodeKey data 0 := by
        rw [show (data.dropLast.getD 0 Node.new).frequency = nodeKey data.dropLast 0 from rfl]
        rw [nodeKey_dropLast data (by omega)]
      rw [hx0, ← hkey]
      exact heap_root_min data hheap i hi2
    · refine sift_down_to_bottom_heap data.dropLast (data.getLast hne) hr ⟨by omega, ?_, ?_⟩
      · intro c hc hc1 hcne hcpar
        rw [List.length_dropLast] at hc
        rw [nodeKey_dropLast data (by omega), nodeKey_dropLast data (by omega)]
        exact hheap c (by omega) hc1
      · intro c hc hc1 hcp hp1
        omega

theorem initial_heap_is_heap (frequencies : Nat → Nat) :
    IsMinHeap (initial_heap frequencies) := by
  unfold initial_heap
  have hgen : ∀ (l s : List Node), IsMinHeap s → IsMinHeap (l.foldl heap_push s) := by
    intro l
    induction l with
    | nil => intro s hs; exact hs
    | cons a t ih =>
      intro s hs
      exact ih (heap_push s a) (heap_push_is_heap s a hs)
  refine hgen _ [] ?_
  intro c hc hc1
  simp at hc

end Chameleon

namespace Chameleon

instance (data : List Node) : Decidable (IsMinHeap data) :=
  inferInstanceAs (Decidable
    (∀ c < data.length, 1 ≤ c → nodeKey data ((c - 1) / 2) ≤ nodeKey data c))

/-- The byte values of the first two nodes the construction's priority queue
pops (the first merge's operands). -/
def construction_first_two_pops (frequencies : Nat → Nat) : Option (Nat × Nat) :=
  match heap_pop (initial_heap frequencies) with
  | none => none
  | some (n1, d1) =>
    match heap_pop d1 with
    | none => none
    | some (n2, _) => some (n1.value, n2.value)

set_option maxRecDepth 1000000 in
/-- C8 (counterexample): the spec claims equal-frequency ties are broken by
symbol/insertion order, which would make the all-zero table's first two pops
the leaves for bytes 0 and 1.  `Ord` on `Node` compares frequencies only and
`BinaryHeap` is not insertion-stable: the queue actually pops the leaves for
bytes 0 and 2 first. -/
theorem c8_ties_not_broken_by_symbol_order :
    construction_first_two_pops (fun _ => 0) = some (0, 2) ∧
    construction_first_two_pops (fun _ => 0) ≠ some (0, 1) := by
  have h : construction_first_two_pops (fun _ => 0) = some (0, 2) := by decide
  refine ⟨h, ?_⟩
  rw [h]
  decide

/-- C8 (amended): the construction queue is a genuine min-priority queue on
frequency — the seeded heap is well-formed, `push` preserves the heap shape,
and every `pop` removes a node of minimal frequency and leaves a well-formed
heap — so pops come in ascending frequency order and the builder is a pure
function of the table; but equal-frequency ties follow the heap's internal
layout, not symbol/insertion order. -/
theorem c8_pops_ascending_frequency :
    (∀ frequencies : Nat → Nat, IsMinHeap (initial_heap frequencies)) ∧
    (∀ (data : List Node) (item : Node), IsMinHeap data →
      IsMinHeap (heap_push data item)) ∧
    (∀ (data : List Node) (x : Node) (d2 : List Node), IsMinHeap data →
      heap_pop data = some (x, d2) →
      (∀ y ∈ data, x.frequency ≤ y.frequency) ∧ IsMinHeap d2) :=
  ⟨initial_heap_is_heap, heap_push_is_heap, heap_pop_spec⟩

/-- Witness for `c8_pops_ascending_frequency` on the three-leaf heap with
frequencies 1, 2, 9: the pop removes the frequency-1 node, a minimum, and
leaves a well-formed heap. -/
theorem c8_pops_ascending_frequency_witness :
    (∀ y ∈ [Node.mk true 7 1 0 0 none none, Node.mk true 3 2 0 0 none none,
        Node.mk true 5 9 0 0 none none],
      (Node.mk true 7 1 0 0 none none).frequency ≤ y.frequency) ∧
    IsMinHeap [Node.mk true 3 2 0 0 none none, Node.mk true 5 9 0 0 none none] :=
  c8_pops_ascending_frequency.2.2
    [Node.mk true 7 1 0 0 none none, Node.mk true 3 2 0 0 none none,
      Node.mk true 5 9 0 0 none none]
    (Node.mk true 7 1 0 0 none none)
    [Node.mk true 3 2 0 0 none none, Node.mk true 5 9 0 0 none none]
    (by decide) rfl

end Chameleon

namespace Chameleon

/-! ## Bit-sequence values (claim C1 groundwork)

`bitsVal` reads a bit list MSB-first; `codeBits`/`bitsOfByte` are the
MSB-first bit expansions used by the Huffman encoder and decoder. -/

def bitVal (b : Bool) : Nat := if b then 1 else 0

def bitsVal (p : List Bool) : Nat :=
  p.foldl (fun acc b => 2 * acc + bitVal b) 0

/-- The top `l` bits of the `u32` made of `addr`'s low `l` bits, MSB first —
exactly the bits `Huffman::encode` emits for a leaf `(addr, l)`. -/
def codeBits (addr l : Nat) : List Bool :=
  (List.range l).map (fun i => addr.testBit (l - 1 - i))

/-- The eight bits of a byte, MSB first, in the order `Huffman::decode`
consumes them. -/
def bitsOfByte (v : Nat) : List Bool :=
  (List.range 8).map (fun i => v.testBit (7 - i))

def bitsOfBytes (bytes : List Nat) : List Bool :=
  bytes.flatMap bitsOfByte

theorem bitsVal_from (p : List Bool) :
    ∀ a : Nat, p.foldl (fun acc b => 2 * acc + bitVal b) a = a * 2 ^ p.length + bitsVal p := by
  induction p with
  | nil => intro a; simp [bitsVal]
  | cons b t ih =>
    intro a
    have h1 := ih (2 * a + bitVal b)
    have h2 := ih (bitVal b)
    have h3 : (2 : Nat) * 0 + bitVal b = bitVal b := by omega
    simp only [List.foldl_cons, List.length_cons, bitsVal] at h1 h2 ⊢
    rw [h3, h1, h2]
    ring

theorem bitsVal_cons (b : Bool) (t : List Bool) :
    bitsVal (b :: t) = bitVal b * 2 ^ t.length + bitsVal t := by
  unfold bitsVal
  simpa using bitsVal_from t (bitVal b)

theorem bitsVal_append_singleton (p : List Bool) (b : Bool) :
    bitsVal (p ++ [b]) = 2 * bitsVal p + bitVal b := by
  unfold bitsVal
  rw [List.foldl_append]
  rfl

theorem bitsVal_lt (p : List Bool) : bitsVal p < 2 ^ p.length := by
  induction p with
  | nil => simp [bitsVal]
  | cons b t ih =>
    rw [bitsVal_cons]
    have : bitVal b ≤ 1 := by unfold bitVal; split <;> omega
    simp only [List.length_cons, pow_succ]
    nlinarith

theorem testBit_bitsVal (p : List Bool) :
    ∀ i < p.length, (bitsVal p).testBit i = p.getD (p.length - 1 - i) false := by
  induction p using List.reverseRecOn with
  | nil => intro i hi2; simp at hi2
  | append_singleton t b ih =>
    intro i hi2
    rw [bitsVal_append_singleton]
    match i with
    | 0 =>
      rw [Nat.testBit_zero]
      have hb : (2 * bitsVal t + bitVal b) % 2 = bitVal b := by
        unfold bitVal
        split <;> omega
      have hgd : (t ++ [b]).getD ((t ++ [b]).length - 1 - 0) false = b := by
        simp
      rw [hgd, hb]
      unfold bitVal
      split <;> simp_all
    | j + 1 =>
      rw [Nat.testBit_succ]
      have hdiv : (2 * bitsVal t + bitVal b) / 2 = bitsVal t := by
        unfold bitVal
        split <;> omega
      rw [hdiv]
      simp only [List.length_append, List.length_singleton] at hi2
      have hj : j < t.length := by omega
      rw [ih j hj]
      have hidx : (t ++ [b]).length - 1 - (j + 1) = t.length - 1 - j := by
        simp
        omega
      rw [hidx]
      have hlt : t.length - 1 - j < t.length := by omega
      simp [List.getD, List.getElem?_append_left hlt]

theorem codeBits_length (addr l : Nat) : (codeBits addr l).length = l := by
  simp [codeBits]

theorem codeBits_bitsVal (p : List Bool) : codeBits (bitsVal p) p.length = p := by
  refine List.ext_getElem (by simp [codeBits]) ?_
  intro i h1 h2
  simp only [codeBits, List.getElem_map, List.getElem_range]
  have hi2 : i < p.length := by simpa using h2
  have hlt : p.length - 1 - i < p.length := by omega
  rw [testBit_bitsVal p (p.length - 1 - i) (by omega)]
  have : p.length - 1 - (p.length - 1 - i) = i := by omega
  rw [this]
  simp [List.getD, List.getElem?_eq_getElem hi2]

theorem bitsOfByte_bitsVal (p : List Bool) (h : p.length = 8) :
    bitsOfByte (bitsVal p) = p := by
  have := codeBits_bitsVal p
  rw [h] at this
  exact this

end Chameleon

namespace Chameleon

/-! ## Byte packing (the `next`/`filled` loop of `Huffman::encode`) -/

/-- One step of the encoder's bit-packing state machine
(`next <<= 1; if bit { next += 1 }; filled += 1; flush at 8`). -/
def pushBit (st : Nat × Nat × List Nat) (b : Bool) : Nat × Nat × List Nat :=
  let next := (st.1 <<< 1) % 256 + bitVal b
  if st.2.1 + 1 = 8 then (0, 0, st.2.2 ++ [next])
  else (next, st.2.1 + 1, st.2.2)

/-- The encoder's trailing flush (`if filled != 0 { output.push(next << (8 - filled)) }`). -/
def flushBits (st : Nat × Nat × List Nat) : List Nat :=
  if st.2.1 ≠ 0 then st.2.2 ++ [(st.1 <<< (8 - st.2.1)) % 256] else st.2.2

/-- The bytes the packing loop produces from a whole bit sequence. -/
def packOut (bits : List Bool) : List Nat :=
  flushBits (bits.foldl pushBit (0, 0, []))

theorem foldl_pushBit_out (bits : List Bool) :
    ∀ (n f : Nat) (out : List Nat),
      bits.foldl pushBit (n, f, out) =
        ((bits.foldl pushBit (n, f, [])).1, (bits.foldl pushBit (n, f, [])).2.1,
          out ++ (bits.foldl pushBit (n, f, [])).2.2) := by
  induction bits with
  | nil => intro n f out; simp
  | cons b t ih =>
    intro n f out
    by_cases h8 : f + 1 = 8
    · have e1 : pushBit (n, f, out) b = (0, 0, out ++ [(n <<< 1) % 256 + bitVal b]) := by
        simp [pushBit, h8]
      have e2 : pushBit (n, f, []) b = (0, 0, [(n <<< 1) % 256 + bitVal b]) := by
        simp [pushBit, h8]
      simp only [List.foldl_cons, e1, e2]
      rw [ih 0 0 (out ++ [(n <<< 1) % 256 + bitVal b]), ih 0 0 [(n <<< 1) % 256 + bitVal b]]
      simp
    · have e1 : pushBit (n, f, out) b = ((n <<< 1) % 256 + bitVal b, f + 1, out) := by
        simp [pushBit, h8]
      have e2 : pushBit (n, f, []) b = ((n <<< 1) % 256 + bitVal b, f + 1, []) := by
        simp [pushBit, h8]
      simp only [List.foldl_cons, e1, e2]
      exact ih _ _ out

theorem foldl_pushBit_partial (bits : List Bool) :
    ∀ (n f : Nat) (out : List Nat), n < 2 ^ f → f + bits.length < 8 →
      bits.foldl pushBit (n, f, out) =
        (n * 2 ^ bits.length + bitsVal bits, f + bits.length, out) := by
  induction bits with
  | nil =>
    intro n f out _ _
    simp [bitsVal]
  | cons b t ih =>
    intro n f out hn hlen
    simp only [List.length_cons] at hlen
    have hf6 : f ≤ 6 := by omega
    have hn2 : n < 64 := by
      have : (2 : Nat) ^ f ≤ 2 ^ 6 := Nat.pow_le_pow_right (by omega) hf6
      omega
    have hsh : (n <<< 1) % 256 = 2 * n := by
      rw [Nat.shiftLeft_eq]
      rw [Nat.mod_eq_of_lt (by omega)]
      ring
    have e1 : pushBit (n, f, out) b = (2 * n + bitVal b, f + 1, out) := by
      simp [pushBit, hsh]
      omega
    simp only [List.foldl_cons, e1]
    have hb1 : bitVal b ≤ 1 := by unfold bitVal; split <;> omega
    have hnext : 2 * n + bitVal b < 2 ^ (f + 1) := by
      rw [pow_succ]
      omega
    rw [ih (2 * n + bitVal b) (f + 1) out hnext (by omega)]
    rw [bitsVal_cons]
    refine Prod.ext ?_ (Prod.ext ?_ rfl)
    · simp only [List.length_cons]
      ring
    · simp only [List.length_cons]
      omega

theorem foldl_pushBit_full (bits : List Bool) :
    ∀ (n f : Nat) (out : List Nat), 1 ≤ bits.length → n < 2 ^ f →
      f + bits.length = 8 →
      bits.foldl pushBit (n, f, out) =
        (0, 0, out ++ [n * 2 ^ bits.length + bitsVal bits]) := by
  induction bits with
  | nil =>
    intro n f out h1 _ _
    simp at h1
  | cons b t ih =>
    intro n f out h1 hn hlen
    simp only [List.length_cons] at hlen
    have hf7 : f ≤ 7 := by omega
    have hn2 : n < 128 := by
      have : (2 : Nat) ^ f ≤ 2 ^ 7 := Nat.pow_le_pow_right (by omega) hf7
      omega
    have hsh : (n <<< 1) % 256 = 2 * n := by
      rw [Nat.shiftLeft_eq]
      rw [Nat.mod_eq_of_lt (by omega)]
      ring
    have hb1 : bitVal b ≤ 1 := by unfold bitVal; split <;> omega
    by_cases h8 : f + 1 = 8
    · have ht0 : t.length = 0 := by omega
      have ht : t = [] := List.length_eq_zero.mp ht0
      subst ht
      have e1 : pushBit (n, f, out) b = (0, 0, out ++ [2 * n + bitVal b]) := by
        simp [pushBit, h8, hsh]
      simp only [List.foldl_cons, e1, List.foldl_nil]
      rw [bitsVal_cons]
      simp [bitsVal]
      ring_nf
    · have e1 : pushBit (n, f, out) b = (2 * n + bitVal b, f + 1, out) := by
        simp [pushBit, hsh]
        omega
      simp only [List.foldl_cons, e1]
      have hnext : 2 * n + bitVal b < 2 ^ (f + 1) := by
        rw [pow_succ]
        omega
      rw [ih (2 * n + bitVal b) (f + 1) out (by omega) hnext (by omega)]
      rw [bitsVal_cons]
      refine congrArg _ (congrArg _ (congrArg _ ?_))
      simp only [List.length_cons]
      ring

end Chameleon

namespace Chameleon

theorem bitsVal_append (p q : List Bool) :
    bitsVal (p ++ q) = bitsVal p * 2 ^ q.length + bitsVal q := by
  unfold bitsVal
  rw [List.foldl_append]
  exact bitsVal_from q _

theorem bitsVal_replicate_false (n : Nat) :
    bitsVal (List.replicate n false) = 0 := by
  induction n with
  | zero => simp [bitsVal]
  | succ m ih =>
    rw [List.replicate_succ, bitsVal_cons, ih]
    simp [bitVal]

theorem bitsOfBytes_append (a b : List Nat) :
    bitsOfBytes (a ++ b) = bitsOfBytes a ++ bitsOfBytes b := by
  simp [bitsOfBytes]

theorem bitsOfBytes_singleton (v : Nat) : bitsOfBytes [v] = bitsOfByte v := by
  simp [bitsOfBytes]

/-- Full characterisation of the packing state after consuming a bit list:
the register holds the trailing partial chunk, the fill counter its length,
and the output bytes expand to the consumed full chunks. -/
theorem foldl_pushBit_spec :
    ∀ (k : Nat) (bits : List Bool), bits.length ≤ k →
      (bits.foldl pushBit (0, 0, [])).1 = bitsVal (bits.drop (8 * (bits.length / 8))) ∧
      (bits.foldl pushBit (0, 0, [])).2.1 = bits.length % 8 ∧
      bitsOfBytes (bits.foldl pushBit (0, 0, [])).2.2 = bits.take (8 * (bits.length / 8)) ∧
      ∀ y ∈ (bits.foldl pushBit (0, 0, [])).2.2, y < 256 := by
  intro k
  induction k with
  | zero =>
    intro bits hlen
    have hnil : bits = [] := List.eq_nil_of_length_eq_zero (by omega)
    subst hnil
    exact ⟨by simp [bitsVal], by simp, by simp [bitsOfBytes], by simp⟩
  | succ k ih =>
    intro bits hlen
    by_cases h8 : bits.length < 8
    · have hp := foldl_pushBit_partial bits 0 0 [] (by norm_num) (by omega)
      rw [hp]
      have hd : 8 * (bits.length / 8) = 0 := by omega
      refine ⟨?_, ?_, ?_, ?_⟩
      · show 0 * 2 ^ bits.length + bitsVal bits = _
        rw [hd]
        simp
      · show 0 + bits.length = bits.length % 8
        omega
      · show bitsOfBytes [] = bits.take (8 * (bits.length / 8))
        rw [hd]
        simp [bitsOfBytes]
      · intro y hy
        simp at hy
    · push_neg at h8
      have hsplit := List.take_append_drop 8 bits
      have ht8len : (bits.take 8).length = 8 := by
        rw [List.length_take]
        omega
      have hfull := foldl_pushBit_full (bits.take 8) 0 0 []
        (by rw [ht8len]; omega) (by norm_num) (by rw [ht8len])
      have hrest := ih (bits.drop 8) (by rw [List.length_drop]; omega)
      have hfold : bits.foldl pushBit (0, 0, []) =
          (((bits.drop 8).foldl pushBit (0, 0, [])).1,
           ((bits.drop 8).foldl pushBit (0, 0, [])).2.1,
           [bitsVal (bits.take 8)] ++ ((bits.drop 8).foldl pushBit (0, 0, [])).2.2) := by
        conv_lhs => rw [← hsplit]
        rw [List.foldl_append, hfull]
        have hv : 0 * 2 ^ (bits.take 8).length + bitsVal (bits.take 8) =
            bitsVal (bits.take 8) := by ring
        rw [List.nil_append, hv]
        exact foldl_pushBit_out (bits.drop 8) 0 0 [bitsVal (bits.take 8)]
      have hd1 : bits.drop (8 * (bits.length / 8)) =
          (bits.drop 8).drop (8 * ((bits.drop 8).length / 8)) := by
        rw [List.drop_drop, List.length_drop]
        congr 1
        omega
      have hd2 : bits.take (8 * (bits.length / 8)) =
          bits.take 8 ++ (bits.drop 8).take (8 * ((bits.drop 8).length / 8)) := by
        have hj : 8 * (bits.length / 8) = 8 + 8 * ((bits.drop 8).length / 8) := by
          rw [List.length_drop]
          omega
        rw [hj, List.take_add]
      rw [hfold]
      refine ⟨?_, ?_, ?_, ?_⟩
      · show ((bits.drop 8).foldl pushBit (0, 0, [])).1 = _
        rw [hd1]
        exact hrest.1
      · show ((bits.drop 8).foldl pushBit (0, 0, [])).2.1 = _
        rw [hrest.2.1, List.length_drop]
        omega
      · show bitsOfBytes ([bitsVal (bits.take 8)] ++
            ((bits.drop 8).foldl pushBit (0, 0, [])).2.2) = _
        rw [bitsOfBytes_append, bitsOfBytes_singleton, bitsOfByte_bitsVal _ ht8len,
          hrest.2.2.1, hd2]
      · intro y hy
        rcases List.mem_append.mp hy with hy1 | hy2
        · have hb := bitsVal_lt (bits.take 8)
          rw [ht8len] at hb
          rw [List.mem_singleton] at hy1
          subst hy1
          norm_num at hb
          exact hb
        · exact hrest.2.2.2 y hy2

/-- The bytes `Huffman::encode`'s packing loop emits expand, MSB first, to
the pushed bits followed by the trailing zero padding, and each is a byte. -/
theorem packOut_spec (bits : List Bool) :
    bitsOfBytes (packOut bits) =
      bits ++ List.replicate ((8 - bits.length % 8) % 8) false ∧
    ∀ y ∈ packOut bits, y < 256 := by
  obtain ⟨h1, h2, h3, h4⟩ := foldl_pushBit_spec bits.length bits le_rfl
  unfold packOut flushBits
  by_cases hm : bits.length % 8 = 0
  · have hcond : ¬ ((bits.foldl pushBit (0, 0, [])).2.1 ≠ 0) := by
      rw [h2, hm]
      omega
    rw [if_neg hcond]
    constructor
    · rw [h3]
      have hlen8 : 8 * (bits.length / 8) = bits.length := by omega
      have hpad : (8 - bits.length % 8) % 8 = 0 := by omega
      rw [hlen8, List.take_length, hpad]
      simp
    · exact h4
  · have hcond : (bits.foldl pushBit (0, 0, [])).2.1 ≠ 0 := by
      rw [h2]
      exact hm
    rw [if_pos hcond]
    have htail : (bits.drop (8 * (bits.length / 8))).length = bits.length % 8 := by
      rw [List.length_drop]
      omega
    have hlt : bitsVal (bits.drop (8 * (bits.length / 8))) < 2 ^ (bits.length % 8) := by
      have := bitsVal_lt (bits.drop (8 * (bits.length / 8)))
      rwa [htail] at this
    have hbyte : ((bits.foldl pushBit (0, 0, [])).1 <<<
        (8 - (bits.foldl pushBit (0, 0, [])).2.1)) % 256 =
        bitsVal (bits.drop (8 * (bits.length / 8)) ++
          List.replicate (8 - bits.length % 8) false) := by
      rw [h1, h2, Nat.shiftLeft_eq, bitsVal_append, bitsVal_replicate_false,
        List.length_replicate]
      have hA : 0 < 2 ^ (8 - bits.length % 8) := pow_pos (by omega) _
      have h256 : (2 : Nat) ^ (bits.length % 8) * 2 ^ (8 - bits.length % 8) = 256 := by
        rw [← pow_add]
        have he : bits.length % 8 + (8 - bits.length % 8) = 8 := by omega
        rw [he]
        norm_num
      have hsmall : bitsVal (bits.drop (8 * (bits.length / 8))) *
          2 ^ (8 - bits.length % 8) < 256 := by
        calc bitsVal (bits.drop (8 * (bits.length / 8))) * 2 ^ (8 - bits.length % 8)
            < 2 ^ (bits.length % 8) * 2 ^ (8 - bits.length % 8) :=
              (Nat.mul_lt_mul_right hA).mpr hlt
          _ = 256 := h256
      rw [Nat.mod_eq_of_lt hsmall]
      omega
    constructor
    · rw [bitsOfBytes_append, bitsOfBytes_singleton, hbyte, h3]
      have hlen8 : (bits.drop (8 * (bits.length / 8)) ++
          List.replicate (8 - bits.length % 8) false).length = 8 := by
        rw [List.length_append, htail, List.length_replicate]
        omega
      rw [bitsOfByte_bitsVal _ hlen8]
      have hpad : (8 - bits.length % 8) % 8 = 8 - bits.length % 8 := by omega
      rw [hpad, ← List.append_assoc, List.take_append_drop]
    · intro y hy
      rcases List.mem_append.mp hy with hy1 | hy2
      · exact h4 y hy1
      · rw [List.mem_singleton] at hy2
        subst hy2
        exact Nat.mod_lt _ (by omega)

end Chameleon

namespace Chameleon

/-! ## Encoder refinement: `emit_code_bits` emits `codeBits` through `pushBit` -/

theorem and_top_bit (code : Nat) :
    (code &&& 2147483648 > 0) ↔ code.testBit 31 = true := by
  have h := Nat.and_two_pow code 31
  norm_num at h
  rw [h]
  cases hb : code.testBit 31 <;> simp

theorem emit_code_bits_eq (k : Nat) :
    ∀ (code : Nat) (st : Nat × Nat × List Nat), k ≤ 32 →
      emit_code_bits k code st =
        ((List.range k).map (fun i => code.testBit (31 - i))).foldl pushBit st := by
  induction k with
  | zero =>
    intro code st _
    simp [emit_code_bits]
  | succ k ih =>
    intro code st hk
    obtain ⟨next, filled, output⟩ := st
    have hstep : emit_code_bits (k + 1) code (next, filled, output) =
        emit_code_bits k ((code <<< 1) % 2 ^ 32)
          (pushBit (next, filled, output) (code.testBit 31)) := by
      by_cases hb : code &&& 2147483648 > 0
      · have ht : code.testBit 31 = true := (and_top_bit code).mp hb
        simp only [emit_code_bits, pushBit, hb, ht, if_true, ite_true, bitVal]
        rw [apply_ite (emit_code_bits k ((code <<< 1) % 2 ^ 32))]
      · have ht : code.testBit 31 = false := by
          cases hbt : code.testBit 31
          · rfl
          · exact absurd ((and_top_bit code).mpr hbt) hb
        simp only [emit_code_bits, pushBit, hb, ht, if_false, ite_false, bitVal,
          Bool.false_eq_true, Nat.add_zero]
        rw [apply_ite (emit_code_bits k ((code <<< 1) % 2 ^ 32))]
    have hlist : (List.range k).map (fun i => ((code <<< 1) % 2 ^ 32).testBit (31 - i)) =
        (List.range k).map ((fun i => code.testBit (31 - i)) ∘ (· + 1)) := by
      refine List.map_congr_left ?_
      intro i hi
      rw [List.mem_range] at hi
      show ((code <<< 1) % 2 ^ 32).testBit (31 - i) = code.testBit (31 - (i + 1))
      rw [Nat.testBit_mod_two_pow, Nat.testBit_shiftLeft]
      have hd1 : decide (31 - i < 32) = true := by
        simp only [decide_eq_true_eq]
        omega
      have hd2 : decide (1 ≤ 31 - i) = true := by
        simp only [decide_eq_true_eq]
        omega
      simp only [hd1, hd2, Bool.true_and]
      congr 1
    rw [hstep, ih ((code <<< 1) % 2 ^ 32) _ (by omega), hlist]
    rw [List.range_succ_eq_map, List.map_cons, List.map_map, List.foldl_cons]

theorem emit_bits_eq_codeBits (addr l : Nat) (h1 : 1 ≤ l) (h2 : l ≤ 32) :
    (List.range l).map (fun i => ((addr <<< (32 - l)) % 2 ^ 32).testBit (31 - i)) =
      codeBits addr l := by
  unfold codeBits
  refine List.map_congr_left ?_
  intro i hi
  rw [List.mem_range] at hi
  rw [Nat.testBit_mod_two_pow, Nat.testBit_shiftLeft]
  have hd1 : decide (31 - i < 32) = true := by
    simp only [decide_eq_true_eq]
    omega
  have hd2 : decide (32 - l ≤ 31 - i) = true := by
    simp only [decide_eq_true_eq]
    omega
  simp only [hd1, hd2, Bool.true_and]
  congr 1
  omega

/-- The MSB-first code bits `Huffman::encode` emits for byte value `v`
(empty when the leaf lookup fails — that arm panics in the source and is
excluded by `encode_symbols` succeeding). -/
def symbolBits (tree : Node) (v : Nat) : List Bool :=
  match find_leaf tree v with
  | some (a, l) => codeBits a l
  | none => []

theorem encode_symbols_spec (tree : Node) :
    ∀ (syms : List Nat) (st res : Nat × Nat × List Nat),
      encode_symbols tree syms st = some res →
      (∀ v ∈ syms, ∃ a l, find_leaf tree v = some (a, l) ∧ 1 ≤ l ∧ l ≤ 32) ∧
      res = (syms.flatMap (symbolBits tree)).foldl pushBit st := by
  intro syms
  induction syms with
  | nil =>
    intro st res h
    simp only [encode_symbols, Option.some.injEq] at h
    subst h
    exact ⟨by simp, by simp⟩
  | cons v rest ih =>
    intro st res h
    rcases hf : find_leaf tree v with _ | ⟨a, l⟩
    · simp only [encode_symbols, hf] at h
      exact absurd h (by simp)
    · simp only [encode_symbols, hf] at h
      by_cases hl : 1 ≤ l ∧ l ≤ 32
      · rw [if_pos hl] at h
        obtain ⟨hall, hres⟩ := ih _ res h
        constructor
        · intro w hw
          rcases List.mem_cons.mp hw with hw1 | hw2
          · subst hw1
            exact ⟨a, l, hf, hl.1, hl.2⟩
          · exact hall w hw2
        · have hstart : emit_code_bits l ((a <<< (32 - l)) % 2 ^ 32) st =
              (codeBits a l).foldl pushBit st := by
            rw [emit_code_bits_eq l ((a <<< (32 - l)) % 2 ^ 32) st hl.2,
              emit_bits_eq_codeBits a l hl.1 hl.2]
          rw [hres, hstart]
          simp only [List.flatMap_cons, List.foldl_append, symbolBits, hf]
      · rw [if_neg hl] at h
        exact absurd h (by simp)

/-- `Huffman::encode`, succeeding, returns the serialized frequency table
followed by the packed code bits of the input, and certifies every input
byte's leaf lookup and code length. -/
theorem encode_spec (input out : List Nat) (h : Huffman.encode input = some out) :
    (∀ v ∈ input, ∃ a l,
        find_leaf (create_huffman_tree_root (count_frequencies input)) v = some (a, l) ∧
        1 ≤ l ∧ l ≤ 32) ∧
    out = frequency_header (count_frequencies input) ++
      packOut (input.flatMap
        (symbolBits (create_huffman_tree_root (count_frequencies input)))) := by
  simp only [Huffman.encode] at h
  rcases henc : encode_symbols (create_huffman_tree_root (count_frequencies input))
      input (0, 0, []) with _ | ⟨next, filled, body⟩
  · rw [henc] at h
    exact absurd h (by simp)
  · rw [henc] at h
    obtain ⟨hall, hst⟩ := encode_symbols_spec _ input (0, 0, []) (next, filled, body) henc
    refine ⟨hall, ?_⟩
    simp only [Option.some.injEq] at h
    rw [← h]
    congr 1
    unfold packOut
    rw [← hst]
    rfl

end Chameleon

namespace Chameleon

/-! ## Decoder refinement: `Huffman::decode`'s byte loop as a bit machine -/

/-- The per-bit transition of `Huffman::decode`, with the byte shifting
abstracted away: `true` takes the right child, `false` the left, and the
arms are exactly those of `decode_step`. -/
def bitMachine (root : Node) : List Bool → Node × Nat × List Nat →
    Except String (List Nat ⊕ (Node × Nat × List Nat))
  | [], st => Except.ok (Sum.inr st)
  | b :: rest, (current, count, output) =>
    match (if b then current.right else current.left) with
    | none => Except.error "Error: Error while decoding."
    | some child =>
      if child.leaf then
        if count = 0 then Except.error "panic: count underflow"
        else if count - 1 = 0 then Except.ok (Sum.inl (output ++ [child.value]))
        else bitMachine root rest (root, count - 1, output ++ [child.value])
      else bitMachine root rest (child, count, output)

/-- Wrapping a machine run the way `decode_loop` finishes: an early return
yields its output, exhaustion yields the accumulated output. -/
def machineRun (root : Node) (bits : List Bool) (st : Node × Nat × List Nat) :
    Except String (List Nat) :=
  match bitMachine root bits st with
  | .error e => .error e
  | .ok (.inl out) => .ok out
  | .ok (.inr st2) => .ok st2.2.2

theorem and_bit7 (v : Nat) : (v &&& 128 = 0) ↔ v.testBit 7 = false := by
  have h := Nat.and_two_pow v 7
  norm_num at h
  rw [h]
  cases hb : v.testBit 7 <;> simp

theorem decode_step_eq (root : Node) (k : Nat) :
    ∀ (v : Nat) (st : Node × Nat × List Nat), k ≤ 8 →
      decode_step root k v st =
        bitMachine root ((List.range k).map (fun i => v.testBit (7 - i))) st := by
  induction k with
  | zero =>
    intro v st _
    simp [decode_step, bitMachine]
  | succ k ih =>
    intro v st hk
    obtain ⟨current, count, output⟩ := st
    have hstep : decode_step root (k + 1) v (current, count, output) =
        (match (if v.testBit 7 then current.right else current.left) with
         | none => Except.error "Error: Error while decoding."
         | some child =>
           if child.leaf then
             if count = 0 then Except.error "panic: count underflow"
             else if count - 1 = 0 then Except.ok (Sum.inl (output ++ [child.value]))
             else decode_step root k ((v <<< 1) % 256) (root, count - 1, output ++ [child.value])
           else decode_step root k ((v <<< 1) % 256) (child, count, output)) := by
      by_cases hb : v.testBit 7 = true
      · have hc : ¬ (v &&& 128 = 0) := by
          intro h0
          rw [(and_bit7 v).mp h0] at hb
          exact absurd hb (by simp)
        simp only [decode_step]
        rw [if_neg hc, if_pos hb]
      · have hbf : v.testBit 7 = false := by
          cases hbt : v.testBit 7
          · rfl
          · exact absurd hbt hb
        have hc : v &&& 128 = 0 := (and_bit7 v).mpr hbf
        simp only [decode_step]
        rw [if_pos hc, if_neg hb]
    have hlist : (List.range k).map ((fun i => v.testBit (7 - i)) ∘ (· + 1)) =
        (List.range k).map (fun i => ((v <<< 1) % 256).testBit (7 - i)) := by
      refine List.map_congr_left ?_
      intro i hi
      rw [List.mem_range] at hi
      show v.testBit (7 - (i + 1)) = ((v <<< 1) % 256).testBit (7 - i)
      rw [show (256 : Nat) = 2 ^ 8 by norm_num]
      rw [Nat.testBit_mod_two_pow, Nat.testBit_shiftLeft]
      have hd1 : decide (7 - i < 8) = true := by
        simp only [decide_eq_true_eq]
        omega
      have hd2 : decide (1 ≤ 7 - i) = true := by
        simp only [decide_eq_true_eq]
        omega
      simp only [hd1, hd2, Bool.true_and]
      congr 1
    rw [hstep, List.range_succ_eq_map, List.map_cons, List.map_map, hlist]
    simp only [Nat.sub_zero]
    have ihv : ∀ st2, decode_step root k ((v <<< 1) % 256) st2 =
        bitMachine root ((List.range k).map (fun i => ((v <<< 1) % 256).testBit (7 - i))) st2 :=
      fun st2 => ih ((v <<< 1) % 256) st2 (by omega)
    simp only [bitMachine]
    rcases hchild : (if v.testBit 7 then current.right else current.left) with _ | child
    · simp only [hchild]
    · simp only [hchild]
      by_cases hleaf : child.leaf = true
      · rw [if_pos hleaf, if_pos hleaf]
        by_cases h0 : count = 0
        · rw [if_pos h0, if_pos h0]
        · rw [if_neg h0, if_neg h0]
          by_cases h1 : count - 1 = 0
          · rw [if_pos h1, if_pos h1]
          · rw [if_neg h1, if_neg h1]
            exact ihv (root, count - 1, output ++ [child.value])
      · rw [if_neg hleaf, if_neg hleaf]
        exact ihv (child, count, output)

theorem bitMachine_append (root : Node) :
    ∀ (p q : List Bool) (st : Node × Nat × List Nat),
      bitMachine root (p ++ q) st =
        (match bitMachine root p st with
         | .error e => .error e
         | .ok (.inl out) => .ok (.inl out)
         | .ok (.inr st2) => bitMachine root q st2) := by
  intro p
  induction p with
  | nil =>
    intro q st
    simp only [List.nil_append, bitMachine]
  | cons b t ih =>
    intro q st
    obtain ⟨current, count, output⟩ := st
    simp only [List.cons_append, bitMachine]
    rcases hc : (if b then current.right else current.left) with _ | child
    · simp only [hc]
    · simp only [hc]
      by_cases hleaf : child.leaf = true
      · rw [if_pos hleaf, if_pos hleaf]
        by_cases h0 : count = 0
        · rw [if_pos h0, if_pos h0]
        · rw [if_neg h0, if_neg h0]
          by_cases h1 : count - 1 = 0
          · rw [if_pos h1, if_pos h1]
          · rw [if_neg h1, if_neg h1]
            exact ih q (root, count - 1, output ++ [child.value])
      · rw [if_neg hleaf, if_neg hleaf]
        exact ih q (child, count, output)

theorem decode_loop_eq (root : Node) :
    ∀ (bytes : List Nat) (st : Node × Nat × List Nat),
      decode_loop root bytes st = machineRun root (bitsOfBytes bytes) st := by
  intro bytes
  induction bytes with
  | nil =>
    intro st
    obtain ⟨c, n, output⟩ := st
    simp [decode_loop, machineRun, bitsOfBytes, bitMachine]
  | cons v rest ih =>
    intro st
    have h8 : decode_step root 8 v st = bitMachine root (bitsOfByte v) st := by
      rw [decode_step_eq root 8 v st (by omega)]
      rfl
    simp only [decode_loop, bitsOfBytes, List.flatMap_cons]
    unfold machineRun
    rw [bitMachine_append, ← h8]
    rcases hres : decode_step root 8 v st with e | s
    · simp only []
    · rcases s with out | st2
      · simp only []
      · show decode_loop root rest st2 =
          (match bitMachine root (rest.flatMap bitsOfByte) st2 with
           | .error e => .error e
           | .ok (.inl out) => .ok out
           | .ok (.inr st3) => .ok st3.2.2)
        exact ih st2

end Chameleon

namespace Chameleon

/-! ## Tree paths: what a bit sequence means against the decoder's walk -/

/-- Shape of the assigned tree: leaves have no children, branches have two. -/
def ShapeInv : Node → Prop
  | .mk true _ _ _ _ none none => True
  | .mk false _ _ _ _ (some l) (some r) => ShapeInv l ∧ ShapeInv r
  | _ => False

/-- The bit path `p`, read through the decoder's child choices
(`true` = right, `false` = left), leads from `n` to a leaf with value `v`. -/
def LeafPath : Node → List Bool → Nat → Prop
  | n, [], v => n.leaf = true ∧ n.value = v
  | n, b :: rest, v =>
    match (if b then n.right else n.left) with
    | none => False
    | some child => LeafPath child rest v

theorem ShapeInv_child (current child : Node) (b : Bool)
    (hs : ShapeInv current)
    (hc : (if b then current.right else current.left) = some child) :
    ShapeInv child := by
  obtain ⟨leaf, v, f, a, l, left, right⟩ := current
  cases leaf <;> cases left <;> cases right <;> simp only [ShapeInv] at hs
  · cases b <;> simp [Node.left, Node.right] at hc
    · exact hc ▸ hs.1
    · exact hc ▸ hs.2
  · cases b <;> simp [Node.left, Node.right] at hc

theorem LeafPath_leaf_nil (child : Node) (hs : ShapeInv child)
    (hleaf : child.leaf = true) :
    ∀ (q : List Bool) (v : Nat), LeafPath child q v → q = [] ∧ child.value = v := by
  intro q v hp
  obtain ⟨leaf, cv, f, a, l, left, right⟩ := child
  simp only [Node.leaf] at hleaf
  subst hleaf
  cases left <;> cases right <;> simp only [ShapeInv] at hs
  rcases q with _ | ⟨b2, q2⟩
  · simp only [LeafPath] at hp
    exact ⟨rfl, hp.2⟩
  · cases b2 <;> simp [LeafPath, Node.left, Node.right] at hp

/-- Walking one `LeafPath` from `current` performs exactly one decoded symbol:
the machine appends the leaf's value, and either returns early (count 1) or
resets to the root with the count decremented. -/
theorem bitMachine_leafPath (root : Node) :
    ∀ (p : List Bool) (current : Node) (v count : Nat) (output : List Nat),
      ShapeInv current → LeafPath current p v → p ≠ [] → 1 ≤ count →
      bitMachine root p (current, count, output) =
        (if count = 1 then Except.ok (Sum.inl (output ++ [v]))
         else Except.ok (Sum.inr (root, count - 1, output ++ [v]))) := by
  intro p
  induction p with
  | nil =>
    intro current v count output _ _ hne _
    exact absurd rfl hne
  | cons b rest ih =>
    intro current v count output hshape hpath _ hcount
    simp only [LeafPath] at hpath
    rcases hc : (if b then current.right else current.left) with _ | child
    · simp only [hc] at hpath
    · simp only [hc] at hpath
      have hschild := ShapeInv_child current child b hshape hc
      simp only [bitMachine, hc]
      by_cases hleaf : child.leaf = true
      · obtain ⟨hrest, hval⟩ := LeafPath_leaf_nil child hschild hleaf rest v hpath
        subst hrest
        rw [if_pos hleaf, if_neg (by omega : ¬ count = 0)]
        by_cases h1 : count = 1
        · rw [if_pos (by omega : count - 1 = 0), if_pos h1, hval]
        · rw [if_neg (by omega : ¬ count - 1 = 0), if_neg h1, hval]
          rfl
      · have hrne : rest ≠ [] := by
          intro hr
          subst hr
          simp only [LeafPath] at hpath
          exact hleaf hpath.1
        rw [if_neg hleaf]
        exact ih child v count output hschild hpath hrne hcount

/-- Running the machine from the root over the concatenated paths of a
nonempty symbol list, with the count equal to the number of symbols, returns
early with exactly those symbols — whatever padding bits follow. -/
theorem bitMachine_syms (root : Node) (hshape : ShapeInv root) :
    ∀ (syms : List Nat), syms ≠ [] →
      ∀ (output : List Nat) (pathOf : Nat → List Bool) (extra : List Bool),
        (∀ v ∈ syms, LeafPath root (pathOf v) v ∧ pathOf v ≠ []) →
        bitMachine root (syms.flatMap pathOf ++ extra) (root, syms.length, output) =
          Except.ok (Sum.inl (output ++ syms)) := by
  intro syms
  induction syms with
  | nil =>
    intro h
    exact absurd rfl h
  | cons v rest ih =>
    intro _ output pathOf extra hpaths
    have hv := hpaths v (by simp)
    simp only [List.length_cons, List.flatMap_cons]
    rw [List.append_assoc, bitMachine_append]
    rw [bitMachine_leafPath root (pathOf v) root v (rest.length + 1) output hshape
      hv.1 hv.2 (by omega)]
    rcases Decidable.em (rest = []) with hr | hr
    · subst hr
      simp
    · have hlen : rest.length + 1 ≠ 1 := by
        intro h
        exact hr (List.length_eq_zero.mp (by omega))
      rw [if_neg hlen]
      show bitMachine root (rest.flatMap pathOf ++ extra)
        (root, rest.length + 1 - 1, output ++ [v]) = Except.ok (Sum.inl (output ++ v :: rest))
      simp only [Nat.add_sub_cancel]
      rw [ih hr (output ++ [v]) pathOf extra (fun w hw => hpaths w (by simp [hw]))]
      simp

end Chameleon

namespace Chameleon

/-! ## From `find_leaf` to tree paths -/

theorem assign_go_shape : ∀ (n : Node), WFNode n → ∀ a len : Nat,
    ShapeInv (assign_go n a len)
  | .mk true v f a0 l0 none none, _, a, len => by
    simp [assign_go, ShapeInv]
  | .mk false v f a0 l0 (some l) (some r), hwf, a, len => by
    obtain ⟨hf, hl, hr⟩ := hwf
    have ihl := assign_go_shape l hl ((a <<< 1) % 2 ^ 32) (len + 1)
    have ihr := assign_go_shape r hr ((a <<< 1) % 2 ^ 32 + 1) (len + 1)
    simp only [assign_go, Bool.false_eq_true, if_false, ShapeInv]
    exact ⟨ihl, ihr⟩
  | .mk true _ _ _ _ none (some _), hwf, _, _ => by simp [WFNode] at hwf
  | .mk true _ _ _ _ (some _) _, hwf, _, _ => by simp [WFNode] at hwf
  | .mk false _ _ _ _ none _, hwf, _, _ => by simp [WFNode] at hwf
  | .mk false _ _ _ _ (some _) none, hwf, _, _ => by simp [WFNode] at hwf

/-- Every successful `find_leaf` lookup in an assigned subtree comes from a
path: the reported length counts the path below the assignment base, and as
long as the total length stays within the 32-bit budget (so the `u32` shifts
never truncate), the reported address is the base address extended by the
path bits. -/
theorem find_leaf_path : ∀ (n : Node), WFNode n → ∀ (a len v addr l : Nat),
    find_leaf (assign_go n a len) v = some (addr, l) →
    ∃ p : List Bool, l = len + p.length ∧ LeafPath (assign_go n a len) p v ∧
      (l ≤ 32 → a < 2 ^ len → addr = a * 2 ^ p.length + bitsVal p)
  | .mk true v0 f a0 l0 none none, _, a, len, v, addr, l => by
    intro h
    simp only [assign_go, if_true, find_leaf] at h
    by_cases hv : v0 = v
    · rw [if_pos hv] at h
      simp only [Option.some.injEq, Prod.mk.injEq] at h
      obtain ⟨rfl, rfl⟩ := h
      refine ⟨[], by simp, ?_, ?_⟩
      · show (Node.mk true v0 f a len none none).leaf = true ∧
          (Node.mk true v0 f a len none none).value = v
        exact ⟨rfl, hv⟩
      · intro _ _
        simp [bitsVal]
    · rw [if_neg hv] at h
      exact absurd h (by simp)
  | .mk false v0 f a0 l0 (some lc) (some rc), hwf, a, len, v, addr, l => by
    intro h
    obtain ⟨hf, hwl, hwr⟩ := hwf
    simp only [assign_go, Bool.false_eq_true, if_false] at h
    simp only [find_leaf, Bool.false_eq_true, if_false] at h
    rcases hL : find_leaf (assign_go lc ((a <<< 1) % 2 ^ 32) (len + 1)) v with _ | x
    · rw [hL] at h
      obtain ⟨p, hplen, hpath, haddr⟩ :=
        find_leaf_path rc hwr ((a <<< 1) % 2 ^ 32 + 1) (len + 1) v addr l h
      refine ⟨true :: p, by simp only [List.length_cons]; omega, ?_, ?_⟩
      · show LeafPath (Node.mk false v0 f a len
          (some (assign_go lc ((a <<< 1) % 2 ^ 32) (len + 1)))
          (some (assign_go rc ((a <<< 1) % 2 ^ 32 + 1) (len + 1)))) (true :: p) v
        simp only [LeafPath, Node.right, if_true, ite_true]
        exact hpath
      · intro hl32 ha
        have hlen31 : len ≤ 31 := by omega
        have h2a : (a <<< 1) % 2 ^ 32 = 2 * a := by
          rw [Nat.shiftLeft_eq]
          have he : a * 2 ^ 1 = 2 * a := by ring
          rw [he]
          apply Nat.mod_eq_of_lt
          have hpow : (2 : Nat) ^ len ≤ 2 ^ 31 := Nat.pow_le_pow_right (by omega) hlen31
          calc 2 * a < 2 * 2 ^ 31 := by omega
            _ = 2 ^ 32 := by norm_num
        have ha2 : (a <<< 1) % 2 ^ 32 + 1 < 2 ^ (len + 1) := by
          rw [h2a, pow_succ]
          omega
        have hav := haddr hl32 ha2
        rw [hav, h2a, bitsVal_cons]
        simp only [List.length_cons, bitVal, if_true, ite_true]
        rw [pow_succ]
        ring
    · rw [hL] at h
      simp only [Option.some.injEq] at h
      subst h
      obtain ⟨p, hplen, hpath, haddr⟩ :=
        find_leaf_path lc hwl ((a <<< 1) % 2 ^ 32) (len + 1) v addr l hL
      refine ⟨false :: p, by simp only [List.length_cons]; omega, ?_, ?_⟩
      · show LeafPath (Node.mk false v0 f a len
          (some (assign_go lc ((a <<< 1) % 2 ^ 32) (len + 1)))
          (some (assign_go rc ((a <<< 1) % 2 ^ 32 + 1) (len + 1)))) (false :: p) v
        simp only [LeafPath, Node.left, Bool.false_eq_true, if_false, ite_false]
        exact hpath
      · intro hl32 ha
        have hlen31 : len ≤ 31 := by omega
        have h2a : (a <<< 1) % 2 ^ 32 = 2 * a := by
          rw [Nat.shiftLeft_eq]
          have he : a * 2 ^ 1 = 2 * a := by ring
          rw [he]
          apply Nat.mod_eq_of_lt
          have hpow : (2 : Nat) ^ len ≤ 2 ^ 31 := Nat.pow_le_pow_right (by omega) hlen31
          calc 2 * a < 2 * 2 ^ 31 := by omega
            _ = 2 ^ 32 := by norm_num
        have ha2 : (a <<< 1) % 2 ^ 32 < 2 ^ (len + 1) := by
          rw [h2a, pow_succ]
          omega
        have hav := haddr hl32 ha2
        rw [hav, h2a, bitsVal_cons]
        simp only [List.length_cons, bitVal, Bool.false_eq_true, if_false, ite_false]
        rw [pow_succ]
        ring
  | .mk true _ _ _ _ none (some _), hwf, _, _, _, _, _ => by simp [WFNode] at hwf
  | .mk true _ _ _ _ (some _) _, hwf, _, _, _, _, _ => by simp [WFNode] at hwf
  | .mk false _ _ _ _ none _, hwf, _, _, _, _, _ => by simp [WFNode] at hwf
  | .mk false _ _ _ _ (some _) none, hwf, _, _, _, _, _ => by simp [WFNode] at hwf

theorem create_tree_shape (f : Nat → Nat) : ShapeInv (create_huffman_tree_root f) := by
  have hinv := create_tree_root_inv f
  have heq : create_huffman_tree_root f = assign_go (create_tree_root f)
      (create_tree_root f).address (create_tree_root f).length := rfl
  rw [heq]
  generalize create_tree_root f = root at hinv ⊢
  exact assign_go_shape root hinv.1 _ _

theorem find_leaf_root_path (f : Nat → Nat) (v addr l : Nat)
    (h : find_leaf (create_huffman_tree_root f) v = some (addr, l)) (hl : l ≤ 32) :
    ∃ p : List Bool, l = p.length ∧ LeafPath (create_huffman_tree_root f) p v ∧
      addr = bitsVal p := by
  have hinv := create_tree_root_inv f
  have heq : create_huffman_tree_root f = assign_go (create_tree_root f)
      (create_tree_root f).address (create_tree_root f).length := rfl
  rw [heq] at h ⊢
  generalize create_tree_root f = root at hinv h ⊢
  obtain ⟨hwf, ha0, hl0⟩ := hinv
  rw [ha0, hl0] at h ⊢
  obtain ⟨p, hplen, hpath, haddr⟩ := find_leaf_path root hwf 0 0 v addr l h
  refine ⟨p, by omega, hpath, ?_⟩
  have := haddr hl (by norm_num)
  simpa using this

/-- When the lookup that `Huffman::encode` performs succeeds with a code
length in `[1, 32]`, the bits it emits for `v` are exactly a decoder path to
`v`'s leaf. -/
theorem symbolBits_path (f : Nat → Nat) (v addr l : Nat)
    (h : find_leaf (create_huffman_tree_root f) v = some (addr, l))
    (h1 : 1 ≤ l) (h2 : l ≤ 32) :
    LeafPath (create_huffman_tree_root f) (symbolBits (create_huffman_tree_root f) v) v ∧
      symbolBits (create_huffman_tree_root f) v ≠ [] := by
  obtain ⟨p, hplen, hpath, haddr⟩ := find_leaf_root_path f v addr l h h2
  have hsb : symbolBits (create_huffman_tree_root f) v = p := by
    unfold symbolBits
    rw [h]
    rw [haddr, hplen]
    exact codeBits_bitsVal p
  rw [hsb]
  refine ⟨hpath, ?_⟩
  intro hnil
  rw [hnil] at hplen
  simp at hplen
  omega

end Chameleon

namespace Chameleon

/-! ## Serialization: the frequency header survives the round trip -/

theorem parse_frequencies_flatMap :
    ∀ (l : List Nat), (∀ x ∈ l, x < 2 ^ 32) →
      parse_frequencies (l.flatMap u32_to_le_bytes) = l := by
  intro l
  induction l with
  | nil =>
    intro _
    rfl
  | cons v t ih =>
    intro h
    have hv : v < 2 ^ 32 := h v (by simp)
    rw [List.flatMap_cons]
    show parse_frequencies (u32_to_le_bytes v ++ t.flatMap u32_to_le_bytes) = v :: t
    show (v % 256 + v / 256 % 256 * 256 + v / 65536 % 256 * 65536 +
        v / 16777216 % 256 * 16777216) :: parse_frequencies (t.flatMap u32_to_le_bytes) =
      v :: t
    rw [ih (fun x hx => h x (by simp [hx]))]
    congr 1
    omega

theorem flatMap_map_eq {α β γ : Type} (l : List α) (f : α → β) (g : β → List γ) :
    (l.map f).flatMap g = l.flatMap (fun a => g (f a)) := by
  induction l with
  | nil => rfl
  | cons a t ih => simp [List.flatMap_cons, ih]

theorem frequency_header_eq (f : Nat → Nat) :
    frequency_header f = ((List.range 256).map f).flatMap u32_to_le_bytes := by
  rw [flatMap_map_eq]
  rfl

theorem frequency_header_length (f : Nat → Nat) :
    (frequency_header f).length = 1024 := by
  have h : ∀ (l : List Nat), (l.flatMap u32_to_le_bytes).length = 4 * l.length := by
    intro l
    induction l with
    | nil => rfl
    | cons v t ih =>
      simp only [List.flatMap_cons, List.length_append, ih, u32_to_le_bytes,
        List.length_cons, List.length_nil]
      omega
  rw [frequency_header_eq, h]
  simp

theorem count_frequencies_lt (B : List Nat) (v : Nat) :
    count_frequencies B v < 2 ^ 32 := by
  suffices h : ∀ (acc : Nat → Nat), (∀ w, acc w < 2 ^ 32) → ∀ w,
      (B.foldl (fun acc byte => fun i =>
        if i = byte then u32_saturating_add (acc byte) 1 else acc i) acc) w < 2 ^ 32 by
    exact h (fun _ => 0) (fun w => by norm_num) v
  induction B with
  | nil =>
    intro acc hacc w
    exact hacc w
  | cons b t ih =>
    intro acc hacc w
    rw [List.foldl_cons]
    refine ih _ ?_ w
    intro u
    show (if u = b then u32_saturating_add (acc b) 1 else acc u) < 2 ^ 32
    by_cases hu : u = b
    · rw [if_pos hu]
      unfold u32_saturating_add
      omega
    · rw [if_neg hu]
      exact hacc u

theorem count_frequencies_eq_count (B : List Nat) :
    B.length < 2 ^ 32 → ∀ v, count_frequencies B v = B.count v := by
  induction B using List.reverseRecOn with
  | nil =>
    intro _ v
    simp [count_frequencies]
  | append_singleton t b ih =>
    intro hlen v
    rw [List.length_append] at hlen
    simp only [List.length_singleton] at hlen
    have iht := ih (by omega)
    have hstep : count_frequencies (t ++ [b]) =
        fun i => if i = b then u32_saturating_add (count_frequencies t b) 1
          else count_frequencies t i := by
      unfold count_frequencies
      rw [List.foldl_append]
      rfl
    rw [hstep]
    have hcountb : t.count b ≤ t.length := List.count_le_length b t
    show (if v = b then u32_saturating_add (count_frequencies t b) 1
      else count_frequencies t v) = (t ++ [b]).count v
    by_cases hv : v = b
    · rw [if_pos hv, hv, iht b, List.count_append]
      have h1 : [b].count b = 1 := by simp
      rw [h1]
      unfold u32_saturating_add
      omega
    · rw [if_neg hv, iht v, List.count_append]
      have h0 : [b].count v = 0 := by
        have hbv : ¬ b = v := fun h => hv h.symm
        simp [List.count_cons, hbv]
      rw [h0]
      omega

theorem foldl_add_sum (l : List Nat) : ∀ a : Nat, l.foldl (· + ·) a = a + l.sum := by
  induction l with
  | nil => intro a; simp
  | cons x t ih =>
    intro a
    rw [List.foldl_cons, ih, List.sum_cons]
    omega

theorem sum_map_add_distrib (l : List Nat) (f g : Nat → Nat) :
    (l.map (fun x => f x + g x)).sum = (l.map f).sum + (l.map g).sum := by
  induction l with
  | nil => rfl
  | cons x t ih =>
    simp only [List.map_cons, List.sum_cons, ih]
    omega

theorem sum_indicator_zero :
    ∀ (n b : Nat), n ≤ b →
      ((List.range n).map (fun v => if b = v then (1 : Nat) else 0)).sum = 0 := by
  intro n
  induction n with
  | zero => intro b _; rfl
  | succ m ih =>
    intro b hb
    rw [List.range_succ, List.map_append, List.sum_append, ih b (by omega)]
    have hne : ¬ b = m := by omega
    simp [hne]

theorem sum_indicator_one :
    ∀ (n b : Nat), b < n →
      ((List.range n).map (fun v => if b = v then (1 : Nat) else 0)).sum = 1 := by
  intro n
  induction n with
  | zero => intro b hb; omega
  | succ m ih =>
    intro b hb
    rw [List.range_succ, List.map_append, List.sum_append]
    by_cases hbm : b = m
    · rw [hbm, sum_indicator_zero m m le_rfl]
      simp
    · rw [ih b (by omega)]
      simp [hbm]

theorem sum_counts (n : Nat) :
    ∀ (B : List Nat), (∀ b ∈ B, b < n) →
      ((List.range n).map (fun v => B.count v)).sum = B.length := by
  intro B
  induction B with
  | nil =>
    intro _
    simp
  | cons b t ih =>
    intro h
    have hchg : ((List.range n).map (fun v => (b :: t).count v)) =
        (List.range n).map (fun v => t.count v + if b = v then 1 else 0) := by
      refine List.map_congr_left ?_
      intro v _
      rw [List.count_cons]
      congr 1
      simp
    rw [hchg, sum_map_add_distrib, ih (fun x hx => h x (by simp [hx])),
      sum_indicator_one n b (h b (by simp))]
    simp

theorem getD_map_range (n : Nat) (f : Nat → Nat) (v : Nat) :
    ((List.range n).map f).getD v 0 = if v < n then f v else 0 := by
  by_cases hv : v < n
  · rw [if_pos hv]
    simp [List.getD, List.getElem?_map, List.getElem?_range hv]
  · rw [if_neg hv]
    have hlen : ((List.range n).map f).length ≤ v := by
      simp
      omega
    simp [List.getD, List.getElem?_eq_none hlen]

end Chameleon

namespace Chameleon

theorem decode_unfold (input : List Nat) (h : ¬ input.length < 4 * 256)
    (h2 : (parse_frequencies (input.take (4 * 256))).length = 256) :
    Huffman.decode input =
      decode_loop (create_huffman_tree_root
          (fun v => (parse_frequencies (input.take (4 * 256))).getD v 0))
        (input.drop (4 * 256))
        (create_huffman_tree_root
          (fun v => (parse_frequencies (input.take (4 * 256))).getD v 0),
         (parse_frequencies (input.take (4 * 256))).foldl (· + ·) 0, []) := by
  simp only [Huffman.decode]
  rw [if_neg h, if_pos h2]

theorem decode_loop_packOut (T : Node) (hshape : ShapeInv T) (B : List Nat)
    (hBne : B ≠ [])
    (hpaths : ∀ v ∈ B, LeafPath T (symbolBits T v) v ∧ symbolBits T v ≠ []) :
    decode_loop T (packOut (B.flatMap (symbolBits T))) (T, B.length, []) =
      Except.ok B := by
  rw [decode_loop_eq]
  obtain ⟨hbits, _⟩ := packOut_spec (B.flatMap (symbolBits T))
  unfold machineRun
  rw [hbits]
  rw [bitMachine_syms T hshape B hBne [] (symbolBits T) _ hpaths]
  simp

/-! The tree-valued terms below are opaque data to the remaining proofs:
unfolding them (they evaluate a 256-leaf heap construction) is never needed
and must not be attempted by unification. -/
attribute [irreducible] ShapeInv LeafPath symbolBits create_huffman_tree_root

set_option maxRecDepth 16384 in
set_option maxHeartbeats 1000000 in
/-- C1: for every byte buffer `B` (each element a byte, the length within the
`u32` frequency counters) whose encoding succeeds, decoding the encoding
returns exactly `B` — including the empty buffer, where the decoder stops on
the zero symbol count. -/
theorem c1_huffman_roundtrip (B : List Nat) (hB : ∀ b ∈ B, b < 256)
    (hlen : B.length < 2 ^ 32) (out : List Nat)
    (henc : Huffman.encode B = some out) :
    Huffman.decode out = Except.ok B := by
  obtain ⟨hall, hout⟩ := encode_spec B out henc
  have hh := frequency_header_length (count_frequencies B)
  have hparse : parse_frequencies (frequency_header (count_frequencies B)) =
      (List.range 256).map (count_frequencies B) := by
    rw [frequency_header_eq]
    refine parse_frequencies_flatMap _ ?_
    intro x hx
    rw [List.mem_map] at hx
    obtain ⟨i, _, rfl⟩ := hx
    exact count_frequencies_lt B i
  have htake : out.take (4 * 256) = frequency_header (count_frequencies B) := by
    rw [hout, show (4 * 256 : Nat) = (frequency_header (count_frequencies B)).length from
      by rw [hh]]
    exact List.take_left _ _
  have hdrop : out.drop (4 * 256) =
      packOut (B.flatMap (symbolBits (create_huffman_tree_root (count_frequencies B)))) := by
    rw [hout, show (4 * 256 : Nat) = (frequency_header (count_frequencies B)).length from
      by rw [hh]]
    exact List.drop_left _ _
  have hnl : ¬ out.length < 4 * 256 := by
    rw [hout, List.length_append, hh]
    omega
  have h256 : (parse_frequencies (out.take (4 * 256))).length = 256 := by
    rw [htake, hparse]
    simp
  have hfreqfun : (fun v => ((List.range 256).map (count_frequencies B)).getD v 0) =
      count_frequencies B := by
    funext v
    rw [getD_map_range]
    by_cases hv : v < 256
    · rw [if_pos hv]
    · rw [if_neg hv]
      rw [count_frequencies_eq_count B hlen v]
      exact (List.count_eq_zero.mpr (fun hmem => hv (hB v hmem))).symm
  have hcount : ((List.range 256).map (count_frequencies B)).foldl (· + ·) 0 = B.length := by
    have hmapeq : (List.range 256).map (count_frequencies B) =
        (List.range 256).map (fun v => B.count v) :=
      List.map_congr_left (fun v _ => count_frequencies_eq_count B hlen v)
    rw [foldl_add_sum, hmapeq, sum_counts 256 B hB]
    simp
  rw [decode_unfold out hnl h256]
  simp only [htake, hparse]
  rw [hfreqfun, hcount, hdrop]
  rcases Decidable.em (B = []) with hBe | hBne
  · subst hBe
    rfl
  · have hpaths : ∀ v ∈ B,
        LeafPath (create_huffman_tree_root (count_frequencies B))
          (symbolBits (create_huffman_tree_root (count_frequencies B)) v) v ∧
        symbolBits (create_huffman_tree_root (count_frequencies B)) v ≠ [] := by
      intro v hv
      obtain ⟨a, l, hfl, h1, h2⟩ := hall v hv
      exact symbolBits_path (count_frequencies B) v a l hfl h1 h2
    have hshape := create_tree_shape (count_frequencies B)
    have hres := decode_loop_packOut (create_huffman_tree_root (count_frequencies B))
      hshape B hBne hpaths
    exact hres


set_option maxRecDepth 100000 in
/-- Witness for `c1_huffman_roundtrip`: the empty buffer encodes to the
all-zero 1024-byte frequency table and decodes back to the empty buffer. -/
theorem c1_huffman_roundtrip_witness :
    (∀ b ∈ ([] : List Nat), b < 256) ∧ ([] : List Nat).length < 2 ^ 32 ∧
    Huffman.decode (List.replicate 1024 0) = Except.ok [] :=
  ⟨by simp, by norm_num, c1_huffman_roundtrip [] (by simp) (by norm_num)
    (List.replicate 1024 0) (by rfl)⟩

end Chameleon
